import Mathlib

/-!
Verification of the incremental ambiguity-resolution engine of `src/crates/src/acekey.rs`
(the ACE-key disambiguator assignment engine).

The Rust source is shallowly embedded below.  Strings are modelled as `List Char`
(`Str`); Rust's `str::chars()` based iteration maps directly onto list operations.
Unicode notes: Rust's `char::is_alphanumeric` and `str::to_lowercase` are modelled by
`Char.isAlphanum` / `Char.toLower` (their ASCII fragments, on which every concrete
input in this development lives); Rust's `char::to_ascii_lowercase` is exactly
`Char.toLower`.  `HashSet<char>` values are only ever used via `insert`/`contains`,
so they are modelled as `List Char` with cons/membership.  `HashMap<usize, _>`
values used via `insert`/`get` are modelled as functions `Nat → Option _` with
last-insert-wins overlay, matching `HashMap::insert` overwrite semantics.

The one `HashMap` whose *iteration order* is observable is the map returned by
`assign_initial_candidates` (Rust iterates it to build the result list when the
typed buffer is empty).  Rust's `HashMap` iteration order is unspecified (a fresh
`RandomState` per map), so the engine is parameterised by that order:
`assign_ace_keys_with` takes the iterated entry list, and any permutation of the
map's entries is a possible behaviour of the compiled program.
`assign_ace_keys` fixes the canonical insertion order.

Rust `unwrap`/indexing sites and how they are modelled:
* `collapse_leading`: `lu_lower.chars().next().unwrap()` is guarded by an early
  return on `is_empty`; modelled by pattern matching (the `[]` case is the early
  return, so the unwrap site is structurally unreachable).
* `attempt_base_full_key_match`: `typed_lower.chars().nth(count).unwrap()` is
  guarded by `typed_lower.chars().count() <= typed_left_unit.chars().count()`
  returning early; modelled by `headD` with a default that is proved irrelevant.
* `matches[0]` / `exact[0]` / `matching_idxs[0]` after `len() == 1` checks:
  modelled by pattern matching on the singleton / `headD`.
* `assigned[idx] = ...`: `Vec` write, modelled by `List.set` (a no-op when out of
  range; the index-in-range invariant is proved, so the write is always in range
  where the Rust code would otherwise panic).
-/

abbrev Str := List Char

/-- Rust `is_ace_rune`: alphanumeric or hyphen. -/
def is_ace_rune (c : Char) : Bool :=
  c.isAlphanum || c == '-'

/-- Rust `is_single_ace_rune`. -/
def is_single_ace_rune (s : Str) : Bool :=
  match s with
  | [ch] => is_ace_rune ch
  | _ => false

/-- Rust `str::to_lowercase` (per-char, ASCII fragment). -/
def lowerStr (s : Str) : Str := s.map Char.toLower

/-- Rust struct `Assignment { index, prefix }`.  The `prefix` field is named
`pfx` here (same data, renamed). -/
structure Assignment where
  index : Nat
  pfx : Str
deriving DecidableEq, Repr

/-- Rust struct `ElemInfo` (the unused `_orig` field is omitted). -/
structure ElemInfo where
  index : Nat
  clean : Str
  lower : Str
  lu : Str
  rune_count : Nat
deriving DecidableEq, Repr

instance : Inhabited ElemInfo := ⟨⟨0, [], [], [], 0⟩⟩

/-- Rust `clean_string`. -/
def clean_string (s : Str) : Str := s.filter is_ace_rune

/-- Rust `leftmost_unit`: `"--"` if the clean string starts with a doubled
marker, otherwise the first character (empty for the empty string). -/
def leftmost_unit (clean : Str) : Str :=
  match clean with
  | '-' :: '-' :: _ => ['-', '-']
  | c :: _ => [c]
  | [] => []

/-- Rust `compute_typed_left_unit`. -/
def compute_typed_left_unit (typed_lower : Str) : Str :=
  leftmost_unit typed_lower

/-- Rust `collapse_leading`: collapse a leading run of the left-unit character
down to a single occurrence.  The Rust `unwrap` on the first char of `lu_lower`
is guarded by the early return; here the guard is the pattern match. -/
def collapse_leading (match_lower lu_lower : Str) : Str :=
  if lu_lower = ['-', '-'] ∨ lu_lower = [] then match_lower
  else
    match lu_lower with
    | [] => match_lower
    | first :: _ =>
      let count := (match_lower.takeWhile (· == first)).length
      if 1 < count then first :: match_lower.drop count
      else match_lower

/-- Rust `build_infos`. -/
def build_infos (elements : List Str) : List ElemInfo :=
  elements.enum.filterMap fun ie =>
    let c := clean_string ie.2
    if c = [] then none
    else some { index := ie.1, clean := c, lower := lowerStr c,
                lu := leftmost_unit c, rune_count := c.length }

/-- Rust `assign_initial_candidates`, as the entry list of the returned
`HashMap<usize, String>` in insertion order (keys are distinct by
construction, so the map's entry set is exactly this list). -/
def assign_initial_candidates (elements : List Str) : List (Nat × Str) :=
  elements.enum.filterMap fun ie =>
    let clean := clean_string ie.2
    if clean = [] then none
    else
      let lu0 := leftmost_unit clean
      let lu := if lu0 = ['-', '-'] then ['-'] else lu0
      some (ie.1, lu)

/-- The left-unit matching guard repeated verbatim in
`attempt_base_full_key_match`, `attempt_base_typed_selection_when_no_candidates`
and the `base_list` filter of `assign_ace_keys`: a single typed `-` also
matches doubled-marker candidates. -/
def base_lu_match (typed_left_unit lu_lower : Str) : Bool :=
  if typed_left_unit = ['-'] then lu_lower = ['-'] || lu_lower = ['-', '-']
  else lu_lower = typed_left_unit

/-- Comparator of Rust `sort_by(|a, b| a.rune_count.cmp(&b.rune_count).then(a.index.cmp(&b.index)))`,
as a `≤`-style relation.  Rust's `sort_by` is a stable sort; it is modelled by
the (equally stable) insertion sort, which the kernel can evaluate. -/
def elemLe (a b : ElemInfo) : Prop :=
  a.rune_count < b.rune_count ∨ (a.rune_count = b.rune_count ∧ a.index ≤ b.index)

instance : DecidableRel elemLe := fun a b => by
  unfold elemLe; infer_instance

/-- First loop of `attempt_base_full_key_match`: greedy original-case
allocation over the sorted base list, with early return on a full-key hit. -/
def base_orig_scan (typed_left_unit typed_clean : Str) :
    List ElemInfo → List Char → Option Assignment
  | [], _ => none
  | it :: rest, used =>
    let start_pos := it.lu.length
    match (it.clean.drop start_pos).find? (fun r => !used.contains r) with
    | some c =>
      if typed_left_unit ++ [c] = typed_clean then some ⟨it.index, []⟩
      else base_orig_scan typed_left_unit typed_clean rest (c :: used)
    | none =>
      if typed_left_unit = typed_clean then some ⟨it.index, []⟩
      else base_orig_scan typed_left_unit typed_clean rest used

/-- Second loop of `attempt_base_full_key_match`: fallback lowercased
allocation (skipping `-`), with early return on a full-key hit. -/
def base_lower_scan (typed_left_unit typed_lower : Str) :
    List ElemInfo → List Char → Option Assignment
  | [], _ => none
  | it :: rest, used =>
    let start_pos := it.lu.length
    match (it.lower.drop start_pos).find? (fun r => r != '-' && !used.contains r) with
    | some c =>
      if typed_left_unit ++ [c] = typed_lower then some ⟨it.index, []⟩
      else base_lower_scan typed_left_unit typed_lower rest (c :: used)
    | none =>
      if typed_left_unit = typed_lower then some ⟨it.index, []⟩
      else base_lower_scan typed_left_unit typed_lower rest used

/-- Rust `attempt_base_full_key_match`. -/
def attempt_base_full_key_match (infos : List ElemInfo)
    (typed_left_unit typed_clean typed_lower : Str) : Option Assignment :=
  if typed_left_unit = [] then none
  else if typed_lower.length ≤ typed_left_unit.length then none
  else
    let extra_len := typed_lower.length - typed_left_unit.length
    let quick : Option Assignment :=
      if extra_len = 1 then
        -- Rust: typed_lower.chars().nth(typed_left_unit.chars().count()).unwrap(),
        -- guarded by the length test above (the default never applies).
        let extra_ch := (typed_lower.drop typed_left_unit.length).headD 'a'
        let hits := infos.filter fun it =>
          base_lu_match typed_left_unit (lowerStr it.lu) &&
            (it.lower.drop it.lu.length).any (· == extra_ch)
        match hits with
        | [m] => some ⟨m.index, []⟩
        | _ => none
      else none
    match quick with
    | some a => some a
    | none =>
      let base_list :=
        (infos.filter fun it => base_lu_match typed_left_unit (lowerStr it.lu)).insertionSort elemLe
      match base_orig_scan typed_left_unit typed_clean base_list [] with
      | some a => some a
      | none => base_lower_scan typed_left_unit typed_lower base_list []

/-- Rust `filter_candidates`. -/
def filter_candidates (infos : List ElemInfo) (typed_lower typed_left_unit : Str) :
    List ElemInfo :=
  if typed_lower = ['-'] then
    infos.filter fun it =>
      lowerStr it.lu = ['-'] || lowerStr it.lu = ['-', '-']
  else
    infos.filter fun it =>
      let lu_lower := lowerStr it.lu
      if lu_lower ≠ typed_left_unit then false
      else
        let match_lower :=
          if lu_lower ≠ ['-', '-'] ∧ lu_lower ≠ [] then collapse_leading it.lower lu_lower
          else it.lower
        typed_lower.isPrefixOf it.lower || typed_lower.isPrefixOf match_lower

/-- The greedy-claim loop of `attempt_base_typed_selection_when_no_candidates`. -/
def base_typed_scan (typed_left_unit typed_lower : Str) :
    List ElemInfo → List Char → Option (List Assignment)
  | [], _ => none
  | bc :: rest, used =>
    match (bc.lower.drop typed_left_unit.length).find?
        (fun r => r != '-' && !used.contains r) with
    | some r =>
      if typed_left_unit ++ [r] = typed_lower then some [⟨bc.index, []⟩]
      else base_typed_scan typed_left_unit typed_lower rest (r :: used)
    | none => base_typed_scan typed_left_unit typed_lower rest used

/-- Rust `attempt_base_typed_selection_when_no_candidates`. -/
def attempt_base_typed_selection_when_no_candidates (infos : List ElemInfo)
    (typed_lower typed_left_unit : Str) : Option (List Assignment) :=
  if typed_left_unit = [] then none
  else if typed_lower.length ≤ typed_left_unit.length then none
  else
    let base_candidates :=
      ((infos.filter fun it => base_lu_match typed_left_unit (lowerStr it.lu)).filter
        fun it =>
          let lu_lower := lowerStr it.lu
          let match_lower :=
            if lu_lower ≠ ['-', '-'] ∧ lu_lower ≠ [] then collapse_leading it.lower lu_lower
            else it.lower
          typed_left_unit.isPrefixOf it.lower || typed_left_unit.isPrefixOf match_lower)
    if base_candidates = [] then none
    else
      base_typed_scan typed_left_unit typed_lower (base_candidates.insertionSort elemLe) []

/-- Rust `exact_case_precedence`. -/
def exact_case_precedence (candidates : List ElemInfo) (typed_clean : Str) :
    Option Assignment :=
  if typed_clean = [] then none
  else
    match candidates.filter (fun it => typed_clean.isPrefixOf it.clean) with
    | [it] => some ⟨it.index, []⟩
    | _ => none

/-- Rust `filter_exact_matches`. -/
def filter_exact_matches (candidates : List ElemInfo) (typed_lower : Str) :
    List ElemInfo :=
  if typed_lower = [] then candidates
  else
    let exact_matches := candidates.filter fun it =>
      let lu_lower := lowerStr it.lu
      let match_lower :=
        if lu_lower ≠ ['-', '-'] ∧ lu_lower ≠ [] then collapse_leading it.lower lu_lower
        else it.lower
      it.lower = typed_lower ∨
        (match_lower = typed_lower ∧ it.lower.length = match_lower.length)
    if exact_matches = [] then candidates
    else
      let other_starts := candidates.any fun it =>
        it.lower != typed_lower && typed_lower.isPrefixOf it.lower
      if !other_starts then exact_matches else candidates

/-- The per-candidate loop of Rust `allocate_disambiguators` (the unfiltered
allocator), threading the `used` set and the assignment vector. -/
def alloc_plain_go (typed_lower typed_left_unit : Str) :
    List ElemInfo → List Char → List (Option Assignment) → List (Option Assignment)
  | [], _, assigned => assigned
  | cand :: rest, used, assigned =>
    let lu_lower := lowerStr cand.lu
    let start_pos := lu_lower.length
    match (cand.clean.drop start_pos).find? (fun r => r != '-' && !used.contains r) with
    | some ar =>
      alloc_plain_go typed_lower typed_left_unit rest (ar :: used)
        (assigned.set cand.index (some ⟨cand.index, [ar]⟩))
    | none =>
      if lu_lower = ['-', '-'] ∧ typed_lower = ['-'] then
        alloc_plain_go typed_lower typed_left_unit rest used
          (assigned.set cand.index (some ⟨cand.index, ['-']⟩))
      else if typed_left_unit ≠ [] then
        alloc_plain_go typed_lower typed_left_unit rest used
          (assigned.set cand.index (some ⟨cand.index, typed_left_unit⟩))
      else
        alloc_plain_go typed_lower typed_left_unit rest used
          (assigned.set cand.index (some ⟨cand.index, []⟩))

/-- Rust `allocate_disambiguators`. -/
def allocate_disambiguators (candidates : List ElemInfo) (typed_lower : Str)
    (elements_count : Nat) : List Assignment :=
  let order := candidates.insertionSort elemLe
  let typed_left_unit := compute_typed_left_unit typed_lower
  (alloc_plain_go typed_lower typed_left_unit order [] (List.replicate elements_count none)).filterMap id

/-- The collapsed match string of one candidate, as computed in Rust
`build_ms_maps`. -/
def ms_of (it : ElemInfo) : Str :=
  let lu_lower := lowerStr it.lu
  if lu_lower ≠ ['-', '-'] ∧ lu_lower ≠ [] then collapse_leading it.lower lu_lower
  else it.lower

/-- Rust `build_ms_maps`: collapsed match strings, start positions, max length.
The two `HashMap<usize, _>` are modelled as overlay functions
(insert-overwrites, matching `HashMap::insert`). -/
def build_ms_maps (order : List ElemInfo) :
    (Nat → Option Str) × (Nat → Option Nat) × Nat :=
  order.foldl
    (fun acc it =>
      let ms := ms_of it
      ((fun i => if i = it.index then some ms else acc.1 i),
       (fun i => if i = it.index then some (lowerStr it.lu).length else acc.2.1 i),
       max acc.2.2 ms.length))
    ((fun _ => none), (fun _ => none), 0)

/-- Mutable state threaded through the three passes of
`allocate_disambiguators_filtered`. -/
structure AllocSt where
  assigned : List (Option Assignment)
  used : List Char
  remaining : List Nat

/-- The eligibility test repeated in `offset_assignment_pass` and
`per_candidate_pass`: not a hyphen, not yet used, not the typed left unit. -/
def elig (used : List Char) (typed_left_unit : Str) (ch : Char) : Bool :=
  ch != '-' && !used.contains ch && (typed_left_unit.isEmpty || [ch] != typed_left_unit)

/-- The frequency table of `offset_assignment_pass` (built per offset over the
remaining candidates with the `used` set as of the start of the offset),
queried at one character.  Rust stores it as `HashMap<char, usize>` and only
reads it back with `get`. -/
def freq_count (remaining : List Nat) (msMap : Nat → Option Str)
    (spMap : Nat → Option Nat) (offset : Nat) (usedSnap : List Char)
    (typed_left_unit : Str) (ch : Char) : Nat :=
  (remaining.filter fun idx =>
    match msMap idx with
    | some ms =>
      let pos := (spMap idx).getD 0 + offset
      match ms[pos]? with
      | some c => c == ch && elig usedSnap typed_left_unit c
      | none => false
    | none => false).length

/-- The original-case preference of the offset pass: prefer the original-case
character of the candidate found in `order` by index when its ASCII lowercase
matches the claimed (lowercased) character. -/
def orig_case_pfx (order : List ElemInfo) (idx pos : Nat) (ch : Char) : Str :=
  match order.find? (fun o => o.index == idx) with
  | some orig_it =>
    match orig_it.clean[pos]? with
    | some orig_ch =>
      if orig_ch != '-' then
        if orig_ch.toLower == ch then [orig_ch] else [ch]
      else [ch]
    | none => [ch]
  | none => [ch]

/-- The inner candidate loop of one offset iteration of
`offset_assignment_pass`.  `remaining` and `usedSnap` are the snapshots taken
at the start of the offset (Rust computes `freq` before the loop and removes
`newly_assigned` after it); `used` is live.  Returns the updated assignment
vector, the live `used` set, and the newly assigned indices. -/
def offset_inner_go (order : List ElemInfo) (msMap : Nat → Option Str)
    (spMap : Nat → Option Nat) (offset : Nat) (typed_left_unit : Str)
    (remaining : List Nat) (usedSnap : List Char) :
    List ElemInfo → List (Option Assignment) → List Char → List Nat →
      List (Option Assignment) × List Char × List Nat
  | [], assigned, used, newly => (assigned, used, newly)
  | it :: rest, assigned, used, newly =>
    let idx := it.index
    if remaining.contains idx then
      match msMap idx with
      | some ms =>
        let pos := (spMap idx).getD 0 + offset
        match ms[pos]? with
        | some ch =>
          if elig used typed_left_unit ch then
            if freq_count remaining msMap spMap offset usedSnap typed_left_unit ch = 1 then
              offset_inner_go order msMap spMap offset typed_left_unit remaining usedSnap rest
                (assigned.set idx (some ⟨idx, orig_case_pfx order idx pos ch⟩))
                (ch :: used) (idx :: newly)
            else
              offset_inner_go order msMap spMap offset typed_left_unit remaining usedSnap rest
                assigned used newly
          else
            offset_inner_go order msMap spMap offset typed_left_unit remaining usedSnap rest
              assigned used newly
        | none =>
          offset_inner_go order msMap spMap offset typed_left_unit remaining usedSnap rest
            assigned used newly
      | none =>
        offset_inner_go order msMap spMap offset typed_left_unit remaining usedSnap rest
          assigned used newly
    else
      offset_inner_go order msMap spMap offset typed_left_unit remaining usedSnap rest
        assigned used newly

/-- Rust `offset_assignment_pass`: iterate offsets `0..max_len`, stopping early
when no candidate remains. -/
def offset_pass_go (order : List ElemInfo) (msMap : Nat → Option Str)
    (spMap : Nat → Option Nat) (typed_left_unit : Str) :
    List Nat → AllocSt → AllocSt
  | [], st => st
  | offset :: rest, st =>
    if st.remaining.isEmpty then st
    else
      let r := offset_inner_go order msMap spMap offset typed_left_unit st.remaining st.used
        order st.assigned st.used []
      let newly := r.2.2
      let remaining :=
        if newly.isEmpty then st.remaining
        else st.remaining.filter (fun x => !newly.contains x)
      offset_pass_go order msMap spMap typed_left_unit rest ⟨r.1, r.2.1, remaining⟩

/-- The position scan of one candidate inside `per_candidate_pass`
(`for pos in start_pos..total` with `break` on the first claim).  Returns the
claimed (lowercased) character and the preferred-case prefix. -/
def per_cand_scan (ms clean : Str) (used : List Char) (typed_left_unit : Str) :
    List Nat → Option (Char × Str)
  | [] => none
  | pos :: rest =>
    match ms[pos]? with
    | some ch =>
      if ch == '-' then per_cand_scan ms clean used typed_left_unit rest
      else if !used.contains ch && (typed_left_unit.isEmpty || [ch] != typed_left_unit) then
        some (ch,
          match clean[pos]? with
          | some orig_ch =>
            if orig_ch != '-' then
              if orig_ch.toLower == ch then [orig_ch] else [ch]
            else [ch]
          | none => [ch])
      else per_cand_scan ms clean used typed_left_unit rest
    | none => per_cand_scan ms clean used typed_left_unit rest

/-- The candidate loop of Rust `per_candidate_pass` (the `remaining` snapshot
is fixed; `newly` is removed from it afterwards). -/
def per_cand_go (msMap : Nat → Option Str) (spMap : Nat → Option Nat)
    (typed_left_unit : Str) (remaining : List Nat) :
    List ElemInfo → List (Option Assignment) → List Char → List Nat →
      List (Option Assignment) × List Char × List Nat
  | [], assigned, used, newly => (assigned, used, newly)
  | it :: rest, assigned, used, newly =>
    let idx := it.index
    if remaining.contains idx then
      match msMap idx with
      | some ms =>
        let start_pos := (spMap idx).getD 0
        let total := ms.length
        match per_cand_scan ms it.clean used typed_left_unit
            (List.range' start_pos (total - start_pos)) with
        | some cp =>
          per_cand_go msMap spMap typed_left_unit remaining rest
            (assigned.set idx (some ⟨idx, cp.2⟩)) (cp.1 :: used) (idx :: newly)
        | none =>
          per_cand_go msMap spMap typed_left_unit remaining rest assigned used newly
      | none =>
        per_cand_go msMap spMap typed_left_unit remaining rest assigned used newly
    else
      per_cand_go msMap spMap typed_left_unit remaining rest assigned used newly

/-- Rust `per_candidate_pass`. -/
def per_candidate_pass (order : List ElemInfo) (msMap : Nat → Option Str)
    (spMap : Nat → Option Nat) (typed_left_unit : Str) (st : AllocSt) : AllocSt :=
  let r := per_cand_go msMap spMap typed_left_unit st.remaining order st.assigned st.used []
  let newly := r.2.2
  let remaining :=
    if newly.isEmpty then st.remaining
    else st.remaining.filter (fun x => !newly.contains x)
  ⟨r.1, r.2.1, remaining⟩

/-- The `chosen` computation of one iteration of Rust `last_resort_assign`:
the last non-hyphen character of the match string (preferring original case,
avoiding the typed left unit when another character exists), or `none` when
the match string consists purely of hyphens. -/
def last_resort_chosen (order : List ElemInfo) (typed_left_unit : Str)
    (idx : Nat) (ms : Str) : Option Str :=
  match ms.reverse.find? (fun r => r != '-') with
  | some ch =>
    if typed_left_unit.isEmpty || [ch] ≠ typed_left_unit then
      let total_chars := ms.length
      let fromOrig : Option Str :=
        match ms.reverse.findIdx? (fun r => r == ch) with
        | some pos_rev =>
          let pos := total_chars - (1 + pos_rev)
          match order.find? (fun o => o.index == idx) with
          | some orig_it =>
            match orig_it.clean[pos]? with
            | some orig_ch =>
              if orig_ch != '-' && orig_ch.toLower == ch then some [orig_ch]
              else none
            | none => none
          | none => none
        | none => none
      match fromOrig with
      | some p => some p
      | none => some [ch]
    else
      match ms.reverse.find?
          (fun r => r != '-' && (typed_left_unit.isEmpty || [r] != typed_left_unit)) with
      | some ch2 => some [ch2]
      | none => some [ch]
  | none => none

/-- Rust `last_resort_assign`: assign every still-remaining candidate the
character picked by `last_resort_chosen`, falling back to its own left unit
with a doubled marker collapsed to a single one. -/
def last_resort_go (order : List ElemInfo) (msMap : Nat → Option Str)
    (typed_left_unit : Str) :
    List Nat → List (Option Assignment) → List (Option Assignment)
  | [], assigned => assigned
  | idx :: rest, assigned =>
    match msMap idx with
    | none => last_resort_go order msMap typed_left_unit rest assigned
    | some ms =>
      match last_resort_chosen order typed_left_unit idx ms with
      | some p =>
        last_resort_go order msMap typed_left_unit rest
          (assigned.set idx (some ⟨idx, p⟩))
      | none =>
        let lu := ((order.find? (fun o => o.index == idx)).map (·.lu)).getD []
        let use_pfx := if lu = ['-', '-'] then ['-'] else lu
        last_resort_go order msMap typed_left_unit rest
          (assigned.set idx (some ⟨idx, use_pfx⟩))

/-- The state after the offset pass and the (conditional) per-candidate pass of
`allocate_disambiguators_filtered` — i.e. just before the last-resort pass. -/
def filtered_passes (candidates : List ElemInfo) (typed_lower : Str)
    (elements_count : Nat) : AllocSt :=
  let typed_left_unit := compute_typed_left_unit typed_lower
  let order := candidates.insertionSort elemLe
  let maps := build_ms_maps order
  let st0 : AllocSt :=
    ⟨List.replicate elements_count none, [], order.map (·.index)⟩
  let st1 := offset_pass_go order maps.1 maps.2.1 typed_left_unit
    (List.range maps.2.2) st0
  if st1.remaining.isEmpty then st1
  else per_candidate_pass order maps.1 maps.2.1 typed_left_unit st1

/-- Rust `allocate_disambiguators_filtered`. -/
def allocate_disambiguators_filtered (candidates : List ElemInfo)
    (typed_lower : Str) (elements_count : Nat) : List Assignment :=
  let typed_left_unit := compute_typed_left_unit typed_lower
  let order := candidates.insertionSort elemLe
  let maps := build_ms_maps order
  let st2 := filtered_passes candidates typed_lower elements_count
  let assigned :=
    if st2.remaining.isEmpty then st2.assigned
    else last_resort_go order maps.1 typed_left_unit st2.remaining st2.assigned
  assigned.filterMap id

/-- Outcome of the tokenized narrowing block of `assign_ace_keys`
(lines 610–679): either a unique selection, or the surviving candidate set
together with the `consumed_any` flag. -/
inductive NarrowOutcome where
  | selected (index : Nat)
  | narrowed (consumed : Bool) (set : List ElemInfo)
deriving DecidableEq, Repr

/-- The token loop of the narrowing block. -/
def narrow_go (base_assigns : List Assignment) (typed_left_unit : Str)
    (elements_count : Nat) :
    List Char → Nat → List ElemInfo → Bool → NarrowOutcome
  | [], _, narrowed, consumed => .narrowed consumed narrowed
  | token :: rest, i, narrowed, consumed =>
    if narrowed.length ≤ 1 then .narrowed consumed narrowed
    else
      let assigns :=
        if i = 0 then base_assigns
        else allocate_disambiguators_filtered narrowed typed_left_unit elements_count
      let matching_idxs :=
        (assigns.filter (fun a => lowerStr a.pfx = [token])).map (·.index)
      if matching_idxs = [] then .narrowed consumed narrowed
      else if matching_idxs.length = 1 then .selected (matching_idxs.headD 0)
      else
        narrow_go base_assigns typed_left_unit elements_count rest (i + 1)
          (narrowed.filter (fun it => matching_idxs.contains it.index)) true

/-- The narrowing block of `assign_ace_keys`: when the typed buffer is the left
unit plus extra runes, treat each extra rune as an ACE-key token against the
base-anchored set, using the pre-typing snapshot allocation for the first
token. -/
def token_narrow (infos : List ElemInfo) (typed_left_unit typed_lower : Str)
    (elements_count : Nat) : NarrowOutcome :=
  if typed_left_unit ≠ [] ∧ typed_left_unit.isPrefixOf typed_lower ∧
      typed_left_unit.length < typed_lower.length then
    let base_list := infos.filter fun it =>
      base_lu_match typed_left_unit (lowerStr it.lu)
    if base_list = [] then .narrowed false []
    else
      let extra_chars := typed_lower.drop typed_left_unit.length
      let base_assigns :=
        allocate_disambiguators_filtered base_list typed_left_unit elements_count
      narrow_go base_assigns typed_left_unit elements_count extra_chars 0 base_list false
  else .narrowed false []

/-- Steps 2–6 of `assign_ace_keys` (everything after the empty-buffer path and
the three leading fast paths). -/
def assign_ace_keys_main (elements_count : Nat) (infos : List ElemInfo)
    (typed_clean typed_lower typed_left_unit : Str) : Option (List Assignment) :=
  match token_narrow infos typed_left_unit typed_lower elements_count with
  | .selected i => some [⟨i, []⟩]
  | .narrowed consumed narrowedSet =>
    let candidates :=
      if consumed then narrowedSet
      else filter_candidates infos typed_lower typed_left_unit
    if candidates = [] then
      match attempt_base_typed_selection_when_no_candidates infos typed_lower
          typed_left_unit with
      | some res => some res
      | none => none
    else
      match exact_case_precedence candidates typed_clean with
      | some a => some [a]
      | none =>
        if typed_lower = typed_left_unit ∧ 1 < candidates.length then
          some (allocate_disambiguators_filtered candidates typed_lower elements_count)
        else
          let candidates2 := filter_exact_matches candidates typed_lower
          if candidates2.length = 1 ∧ typed_lower ≠ [] then
            some [⟨(candidates2.headD default).index, []⟩]
          else if consumed then
            some (allocate_disambiguators_filtered candidates2 typed_left_unit elements_count)
          else
            some (allocate_disambiguators candidates2 typed_lower elements_count)

/-- Rust `assign_ace_keys`, parameterised by the iteration order `initOrder` of
the `assign_initial_candidates` hash map (used only on the empty-buffer path;
any permutation of the map entries is a possible iteration order of the
compiled program). -/
def assign_ace_keys_with (elements : List Str) (typed : Str)
    (initOrder : List (Nat × Str)) : Option (List Assignment) :=
  let infos := build_infos elements
  let typed_clean := clean_string typed
  let typed_lower := lowerStr typed_clean
  let typed_left_unit := compute_typed_left_unit typed_lower
  if typed_lower = [] then
    some (initOrder.map fun ip => { index := ip.1, pfx := ip.2 })
  else
    let attempt :=
      if ¬(typed_left_unit ≠ [] ∧ typed_left_unit.isPrefixOf typed_lower ∧
          typed_left_unit.length < typed_lower.length) then
        attempt_base_full_key_match infos typed_left_unit typed_clean typed_lower
      else none
    match attempt with
    | some a => some [a]
    | none =>
      let fast : Option Assignment :=
        match infos.findIdx? (fun it => it.clean == typed_clean) with
        | some idx =>
          if ¬(typed_lower = typed_left_unit ∧
              1 < (infos.filter (fun it => lowerStr it.lu = typed_left_unit)).length) then
            some ⟨idx, []⟩
          else none
        | none => none
      match fast with
      | some a => some [a]
      | none =>
        match exact_case_precedence infos typed_clean with
        | some a => some [a]
        | none =>
          assign_ace_keys_main elements.length infos typed_clean typed_lower
            typed_left_unit

/-- Rust `assign_ace_keys` with the canonical (insertion-order) determinization
of the initial-candidates map iteration. -/
def assign_ace_keys (elements : List Str) (typed : Str) : Option (List Assignment) :=
  assign_ace_keys_with elements typed (assign_initial_candidates elements)

/-! ## Auxiliary predicates used by the claim statements -/

/-- Equality of engine results up to the order of the assignment list (two
possible outputs of the same call under different hash-iteration orders). -/
def assignListPerm : Option (List Assignment) → Option (List Assignment) → Prop
  | none, none => True
  | some l1, some l2 => l1.Perm l2
  | _, _ => False

/-- A string all of whose characters are fixed by ASCII lowercasing (the shape
of every `lower` field and of the engine-internal `typed_lower`). -/
def LowerClosed (s : Str) : Prop := ∀ c ∈ s, c.toLower = c

instance : DecidablePred LowerClosed := fun s => by
  unfold LowerClosed; infer_instance

/-- The condition under which the unfiltered allocator
(`allocate_disambiguators`) never reaches its fallback branches: walking the
sorted candidate list, every candidate finds a fresh usable character in its
own body (the same `find` as in `alloc_plain_go`). -/
def plain_all_fresh : List ElemInfo → List Char → Bool
  | [], _ => true
  | cand :: rest, used =>
    match (cand.clean.drop (lowerStr cand.lu).length).find?
        (fun r => r != '-' && !used.contains r) with
    | some ar => plain_all_fresh rest (ar :: used)
    | none => false

/-- Invariant of the assignment vector threaded through the allocator passes:
every filled slot holds an assignment for its own position, that position is
among the tracked candidate indices, and the stored disambiguator satisfies
`P`. -/
def AVGood (idxs : List Nat) (P : Str → Prop)
    (assigned : List (Option Assignment)) : Prop :=
  ∀ (i : Nat) (a : Assignment), assigned[i]? = some (some a) →
    a.index = i ∧ i ∈ idxs ∧ P a.pfx

/-- Strong invariant of the offset and per-candidate passes: every assigned
disambiguator is a single character whose lowercase form has been recorded in
the `used` set and that differs from the typed left unit, and assigned
disambiguators are pairwise distinct across positions. -/
def AVStrong (typed_left_unit : Str) (used : List Char)
    (assigned : List (Option Assignment)) : Prop :=
  (∀ (i : Nat) (a : Assignment), assigned[i]? = some (some a) →
    ∃ c, a.pfx = [c] ∧ c.toLower ∈ used ∧
      (typed_left_unit ≠ [] → a.pfx ≠ typed_left_unit)) ∧
  (∀ (i j : Nat) (a b : Assignment), i ≠ j →
    assigned[i]? = some (some a) → assigned[j]? = some (some b) →
    a.pfx ≠ b.pfx)

/-- Strong invariant of the unfiltered allocator's main path: every assigned
disambiguator is a single character recorded in the `used` set, and assigned
disambiguators are pairwise distinct across positions. -/
def AVPlain (used : List Char) (assigned : List (Option Assignment)) : Prop :=
  (∀ (i : Nat) (a : Assignment), assigned[i]? = some (some a) →
    ∃ c, a.pfx = [c] ∧ c ∈ used) ∧
  (∀ (i j : Nat) (a b : Assignment), i ≠ j →
    assigned[i]? = some (some a) → assigned[j]? = some (some b) →
    a.pfx ≠ b.pfx)

/-- Whether a narrowing outcome is the fall-through one (no token consumed, no
selection): in that case `assign_ace_keys` proceeds with `filter_candidates`. -/
def NarrowOutcome.fellThrough : NarrowOutcome → Prop
  | .narrowed false _ => True
  | _ => False

instance : DecidablePred NarrowOutcome.fellThrough := fun o => by
  unfold NarrowOutcome.fellThrough
  match o with
  | .narrowed false _ => exact inferInstanceAs (Decidable True)
  | .narrowed true _ => exact inferInstanceAs (Decidable False)
  | .selected _ => exact inferInstanceAs (Decidable False)

/-! ## Concrete example claims and counterexamples -/

/-- Claim C8: for the pool `["--long","-s"]` and typed buffer `"-"`, the engine
returns exactly two assignments, one per candidate, with distinct non-empty
disambiguators (`"l"` and `"s"`). -/
theorem claim_C8 :
    assign_ace_keys ["--long".data, "-s".data] "-".data =
      some [⟨0, ['l']⟩, ⟨1, ['s']⟩] ∧
    ([⟨0, ['l']⟩, ⟨1, ['s']⟩] : List Assignment).length = 2 ∧
    (∀ a ∈ ([⟨0, ['l']⟩, ⟨1, ['s']⟩] : List Assignment), a.pfx ≠ []) ∧
    ([⟨0, ['l']⟩, ⟨1, ['s']⟩] : List Assignment).Pairwise
      (fun a b => a.pfx ≠ b.pfx) := by
  decide

/-- Claim C9: for the pool `["jjui","ju"]` and typed buffer `"ju"`, the engine
returns exactly one assignment, for index 1 (the label `"ju"`), with an empty
disambiguator. -/
theorem claim_C9 :
    assign_ace_keys ["jjui".data, "ju".data] "ju".data = some [⟨1, []⟩] := by
  decide

/-- Claim C1 counterexample: for the pool `["ab","aab"]` and typed buffer
`"a"`, the engine returns two surviving assignments whose non-empty
disambiguators are both `"b"` — the last-resort pass of the filtered allocator
claims the final `b` of `"aab"` without consulting the used set. -/
theorem claim_C1_counterexample :
    assign_ace_keys ["ab".data, "aab".data] "a".data =
      some [⟨0, ['b']⟩, ⟨1, ['b']⟩] ∧
    2 ≤ ([⟨0, ['b']⟩, ⟨1, ['b']⟩] : List Assignment).length ∧
    ¬ ([⟨0, ['b']⟩, ⟨1, ['b']⟩] : List Assignment).Pairwise
        (fun a b => a.pfx ≠ [] → b.pfx ≠ [] → a.pfx ≠ b.pfx) := by
  decide

/-- Claim C2 counterexample, at two reuse sites.  First, for the pool
`["--","-a"]` and typed buffer `"-"` (whose left unit is `"-"`), the candidate
`"--"` has no non-marker character, so the last-resort fallback assigns it its
own left unit collapsed to `"-"` — equal to the left unit already implied by
the typed buffer.  Second, for the pool `["aax","aay"]` and typed buffer
`"aa"` (whose left unit is `"a"`), the unfiltered allocator's main contiguous
scan — which, unlike the filtered allocator's eligibility check, never
excludes the anchor — lets candidate `"aax"` claim `'a'`, so the engine
returns the anchor `"a"` from a main pass, not a fallback. -/
theorem claim_C2_counterexample :
    (assign_ace_keys ["--".data, "-a".data] "-".data =
      some [⟨0, ['-']⟩, ⟨1, ['a']⟩] ∧
    compute_typed_left_unit (lowerStr (clean_string "-".data)) = ['-'] ∧
    (∃ a ∈ ([⟨0, ['-']⟩, ⟨1, ['a']⟩] : List Assignment),
      a.pfx ≠ [] ∧ a.pfx = ['-'])) ∧
    (assign_ace_keys ["aax".data, "aay".data] "aa".data =
      some [⟨0, ['a']⟩, ⟨1, ['y']⟩] ∧
    compute_typed_left_unit (lowerStr (clean_string "aa".data)) = ['a'] ∧
    (∃ a ∈ ([⟨0, ['a']⟩, ⟨1, ['y']⟩] : List Assignment),
      a.pfx ≠ [] ∧ a.pfx = ['a'])) := by
  decide

/-- Claim C3 counterexample: on the empty typed buffer the result list is the
iteration of the initial-candidates hash map, whose order Rust leaves
unspecified (a fresh `RandomState` per call); two valid iteration orders of
the same map on the same inputs give the returned lists in different order,
so the result is not a function of the two inputs alone. -/
theorem claim_C3_counterexample :
    List.Perm [(0, ['a']), (1, ['c'])] (assign_initial_candidates ["ab".data, "cd".data]) ∧
    List.Perm [(1, ['c']), (0, ['a'])] (assign_initial_candidates ["ab".data, "cd".data]) ∧
    assign_ace_keys_with ["ab".data, "cd".data] [] [(0, ['a']), (1, ['c'])] ≠
      assign_ace_keys_with ["ab".data, "cd".data] [] [(1, ['c']), (0, ['a'])] := by
  decide

/-- Claim C5 counterexample: pool `["abc","aab"]`, typed buffer `"ab"` (left
unit `"a"` plus the extra character `b`).  In the allocation computed over the
full base-anchored set, exactly one candidate — index 1, `"aab"` — carries the
disambiguator `"b"`; yet the engine returns index 0 with an empty
disambiguator, because the case-exact-prefix fast path (`"abc"` is the only
candidate whose clean form starts with `"ab"`) fires before token narrowing is
consulted. -/
theorem claim_C5_counterexample :
    ((allocate_disambiguators_filtered
        ((build_infos ["abc".data, "aab".data]).filter
          (fun it => base_lu_match ['a'] (lowerStr it.lu)))
        ['a'] 2).filter (fun a => lowerStr a.pfx = ['b'])).map (·.index) = [1] ∧
    compute_typed_left_unit (lowerStr (clean_string "ab".data)) = ['a'] ∧
    assign_ace_keys ["abc".data, "aab".data] "ab".data = some [⟨0, []⟩] := by
  decide

/-- Claim C6 counterexample: pool `["a-ab","a-ac"]`, typed buffer `"ab"`.  The
filtered candidate set is empty and the base-typed fallback resolves no
candidate, yet the engine does not fail: token narrowing consumed the token
`b` against the base snapshot and selected index 0. -/
theorem claim_C6_counterexample :
    filter_candidates (build_infos ["a-ab".data, "a-ac".data])
      (lowerStr (clean_string "ab".data))
      (compute_typed_left_unit (lowerStr (clean_string "ab".data))) = [] ∧
    attempt_base_typed_selection_when_no_candidates
      (build_infos ["a-ab".data, "a-ac".data])
      (lowerStr (clean_string "ab".data))
      (compute_typed_left_unit (lowerStr (clean_string "ab".data))) = none ∧
    assign_ace_keys ["a-ab".data, "a-ac".data] "ab".data = some [⟨0, []⟩] := by
  decide

/-! ## Basic lemmas -/

theorem leftmost_unit_ne_nil {s : Str} (h : s ≠ []) : leftmost_unit s ≠ [] := by
  unfold leftmost_unit
  split
  · simp
  · simp
  · exact absurd rfl h

theorem assignListPerm_refl (x : Option (List Assignment)) : assignListPerm x x := by
  cases x with
  | none => trivial
  | some l => exact List.Perm.refl l

/-- On an empty (cleaned) typed buffer, the engine returns the iterated
initial-candidates map. -/
theorem aakw_empty (elements : List Str) (typed : Str) (o : List (Nat × Str))
    (h : lowerStr (clean_string typed) = []) :
    assign_ace_keys_with elements typed o =
      some (o.map fun ip => { index := ip.1, pfx := ip.2 }) := by
  simp [assign_ace_keys_with, h]

/-- On a non-empty (cleaned) typed buffer, the engine ignores the iteration
order of the initial-candidates map. -/
theorem aakw_indep (elements : List Str) (typed : Str) (o1 o2 : List (Nat × Str))
    (h : lowerStr (clean_string typed) ≠ []) :
    assign_ace_keys_with elements typed o1 = assign_ace_keys_with elements typed o2 := by
  simp only [assign_ace_keys_with]
  rw [if_neg h, if_neg h]

/-- Claim C3, amended: two calls of the engine with the same label list and
typed buffer return the same assignment pairs up to list order under any two
(unspecified) iteration orders of the initial-candidates map; when the typed
buffer cleans to a non-empty string the two results are moreover equal as
lists.  (The original claim demanded equal list order in all cases; the
empty-buffer path iterates a hash map whose order is not a function of the
inputs.) -/
theorem claim_C3_amended (elements : List Str) (typed : Str)
    (o1 o2 : List (Nat × Str))
    (h1 : o1.Perm (assign_initial_candidates elements))
    (h2 : o2.Perm (assign_initial_candidates elements)) :
    assignListPerm (assign_ace_keys_with elements typed o1)
      (assign_ace_keys_with elements typed o2) ∧
    (lowerStr (clean_string typed) ≠ [] →
      assign_ace_keys_with elements typed o1 = assign_ace_keys_with elements typed o2) := by
  by_cases h : lowerStr (clean_string typed) = []
  · refine ⟨?_, fun hne => absurd h hne⟩
    rw [aakw_empty elements typed o1 h, aakw_empty elements typed o2 h]
    exact List.Perm.map _ (h1.trans h2.symm)
  · refine ⟨?_, fun _ => aakw_indep elements typed o1 o2 h⟩
    rw [aakw_indep elements typed o1 o2 h]
    exact assignListPerm_refl _

/-- Witness for the amended claim C3 at a concrete input. -/
theorem claim_C3_amended_witness :
    List.Perm [(0, ['a'])] (assign_initial_candidates ["ab".data]) ∧
    assignListPerm (assign_ace_keys_with ["ab".data] "x".data [(0, ['a'])])
      (assign_ace_keys_with ["ab".data] "x".data [(0, ['a'])]) :=
  ⟨by decide,
   (claim_C3_amended ["ab".data] "x".data [(0, ['a'])] [(0, ['a'])]
     (by decide) (by decide)).1⟩

/-- Membership characterization of the initial-candidates map: the entry for
index `i` exists iff label `i` cleans to a non-empty string, and its value is
that label's left unit with a doubled marker collapsed to a single `-`. -/
theorem aic_mem (elements : List Str) (i : Nat) (p : Str) :
    (i, p) ∈ assign_initial_candidates elements ↔
      ∃ _hi : i < elements.length,
        clean_string elements[i] ≠ [] ∧
        p = (if leftmost_unit (clean_string elements[i]) = ['-', '-'] then ['-']
             else leftmost_unit (clean_string elements[i])) := by
  unfold assign_initial_candidates
  rw [List.mem_filterMap]
  constructor
  · rintro ⟨⟨j, e⟩, hmem, hf⟩
    rw [List.mem_enum_iff_getElem?] at hmem
    simp only at hf hmem
    by_cases hc : clean_string e = []
    · rw [if_pos hc] at hf
      exact absurd hf (by simp)
    · rw [if_neg hc] at hf
      have hji : j = i ∧ (if leftmost_unit (clean_string e) = ['-', '-'] then ['-']
          else leftmost_unit (clean_string e)) = p := by
        have := Option.some.inj hf
        exact ⟨congrArg Prod.fst this, congrArg Prod.snd this⟩
      obtain ⟨hj, hp⟩ := hji
      subst hj
      obtain ⟨hi, hget⟩ := List.getElem?_eq_some_iff.mp hmem
      subst hget
      exact ⟨hi, hc, hp.symm⟩
  · rintro ⟨hi, hc, hp⟩
    refine ⟨(i, elements[i]), ?_, ?_⟩
    · rw [List.mem_enum_iff_getElem?]
      exact List.getElem?_eq_some_iff.mpr ⟨hi, rfl⟩
    · simp only
      rw [if_neg hc, hp]

/-- The first components of an index-preserving `filterMap` over `enumFrom`
form a sublist of the corresponding index range. -/
theorem enumFrom_filterMap_fst_sublist {β : Type} (g : Nat × Str → Option (Nat × β))
    (hg : ∀ j e jp, g (j, e) = some jp → jp.1 = j) :
    ∀ (l : List Str) (k : Nat),
      List.Sublist (((List.enumFrom k l).filterMap g).map Prod.fst) (List.range' k l.length) := by
  intro l
  induction l with
  | nil => intro k; simp
  | cons e rest ih =>
    intro k
    rw [List.enumFrom_cons, List.filterMap_cons]
    have hlen : (e :: rest).length = rest.length + 1 := by simp
    rw [hlen, List.range'_succ]
    cases hge : g (k, e) with
    | none =>
      simp only [hge]
      exact (ih (k + 1)).cons _
    | some jp =>
      simp only [hge, List.map_cons]
      rw [hg k e jp hge]
      exact (ih (k + 1)).cons₂ _

/-- The indices in the initial-candidates map are pairwise distinct. -/
theorem aic_fst_nodup (elements : List Str) :
    ((assign_initial_candidates elements).map Prod.fst).Nodup := by
  have hg : ∀ (j : Nat) (e : Str) (jp : Nat × Str),
      (let clean := clean_string e
       if clean = [] then none
       else
         let lu0 := leftmost_unit clean
         let lu := if lu0 = ['-', '-'] then ['-'] else lu0
         some (j, lu)) = some jp → jp.1 = j := by
    intro j e jp hf
    simp only at hf
    by_cases hc : clean_string e = []
    · rw [if_pos hc] at hf; exact absurd hf (by simp)
    · rw [if_neg hc] at hf
      have := Option.some.inj hf
      exact (congrArg Prod.fst this).symm ▸ rfl
  have h := enumFrom_filterMap_fst_sublist
    (g := fun ie =>
      let clean := clean_string ie.2
      if clean = [] then none
      else
        let lu0 := leftmost_unit clean
        let lu := if lu0 = ['-', '-'] then ['-'] else lu0
        some (ie.1, lu))
    (fun j e jp hf => hg j e jp hf) elements 0
  unfold assign_initial_candidates
  rw [List.enum_eq_enumFrom]
  exact h.nodup (List.nodup_range' 0 elements.length)

/-- Claim C10: when the typed buffer cleans to empty, the engine returns one
assignment per label with non-empty clean form (labels cleaning to empty get
none, and indices are pairwise distinct), and each disambiguator is that
label's left unit with a doubled marker collapsed to `-`. -/
theorem claim_C10 (elements : List Str) (typed : Str)
    (h : clean_string typed = []) :
    assign_ace_keys elements typed =
      some ((assign_initial_candidates elements).map fun ip =>
        { index := ip.1, pfx := ip.2 }) ∧
    (∀ i p, (i, p) ∈ assign_initial_candidates elements ↔
      ∃ _hi : i < elements.length,
        clean_string elements[i] ≠ [] ∧
        p = (if leftmost_unit (clean_string elements[i]) = ['-', '-'] then ['-']
             else leftmost_unit (clean_string elements[i]))) ∧
    ((assign_initial_candidates elements).map Prod.fst).Nodup := by
  refine ⟨?_, fun i p => aic_mem elements i p, aic_fst_nodup elements⟩
  exact aakw_empty elements typed _ (by rw [h]; rfl)

/-- Witness for claim C10 at a concrete input: a pool with a plain label, a
doubled-marker label and an empty label, and a typed buffer that cleans to
empty. -/
theorem claim_C10_witness :
    clean_string "!".data = [] ∧
    assign_ace_keys ["ab".data, "--x".data, "".data] "!".data =
      some ((assign_initial_candidates ["ab".data, "--x".data, "".data]).map fun ip =>
        { index := ip.1, pfx := ip.2 }) :=
  ⟨by decide, (claim_C10 ["ab".data, "--x".data, "".data] "!".data (by decide)).1⟩

/-! ## Well-formedness and subset lemmas -/

theorem build_infos_wf {elements : List Str} {info : ElemInfo}
    (h : info ∈ build_infos elements) :
    info.index < elements.length ∧ info.clean ≠ [] ∧
    info.lower = lowerStr info.clean ∧ info.lu = leftmost_unit info.clean ∧
    info.rune_count = info.clean.length := by
  unfold build_infos at h
  rw [List.mem_filterMap] at h
  obtain ⟨⟨j, e⟩, hmem, hf⟩ := h
  rw [List.mem_enum_iff_getElem?] at hmem
  simp only at hf hmem
  by_cases hc : clean_string e = []
  · rw [if_pos hc] at hf
    exact absurd hf (by simp)
  · rw [if_neg hc] at hf
    have heq := Option.some.inj hf
    subst heq
    obtain ⟨hj, _⟩ := List.getElem?_eq_some_iff.mp hmem
    exact ⟨hj, hc, rfl, rfl, rfl⟩

theorem build_infos_length_le (elements : List Str) :
    (build_infos elements).length ≤ elements.length := by
  unfold build_infos
  calc (elements.enum.filterMap _).length ≤ elements.enum.length :=
        List.length_filterMap_le _ _
    _ = elements.length := List.enum_length

theorem filter_candidates_subset {infos : List ElemInfo} {tl tlu : Str} :
    ∀ it ∈ filter_candidates infos tl tlu, it ∈ infos := by
  unfold filter_candidates
  intro it h
  split at h <;> exact List.mem_of_mem_filter h

theorem filter_exact_matches_subset {cands : List ElemInfo} {tl : Str} :
    ∀ it ∈ filter_exact_matches cands tl, it ∈ cands := by
  unfold filter_exact_matches
  intro it h
  split at h
  · exact h
  · dsimp only at h
    split at h
    · exact h
    · split at h
      · exact List.mem_of_mem_filter h
      · exact h

/-! ## Specifications of the small pass primitives -/

theorem elig_iff (used : List Char) (tlu : Str) (ch : Char) :
    elig used tlu ch = true ↔
      ch ≠ '-' ∧ ch ∉ used ∧ (tlu = [] ∨ [ch] ≠ tlu) := by
  simp only [elig, Bool.and_eq_true, Bool.or_eq_true, bne_iff_ne, ne_eq,
    Bool.not_eq_true', List.isEmpty_iff]
  rw [show (used.contains ch = false) ↔ ch ∉ used by
    rw [← Bool.not_eq_true, not_iff_not]; exact List.elem_iff]
  tauto

theorem orig_case_pfx_spec (order : List ElemInfo) (idx pos : Nat) (ch : Char) :
    orig_case_pfx order idx pos ch = [ch] ∨
      ∃ o, orig_case_pfx order idx pos ch = [o] ∧ o.toLower = ch := by
  unfold orig_case_pfx
  split
  · split
    · split
      · split
        · rename_i horig
          exact Or.inr ⟨_, rfl, by simpa using horig⟩
        · exact Or.inl rfl
      · exact Or.inl rfl
    · exact Or.inl rfl
  · exact Or.inl rfl

theorem per_cand_scan_spec {ms clean : Str} {used : List Char} {tlu : Str} :
    ∀ {ps : List Nat} {ch : Char} {p : Str},
      per_cand_scan ms clean used tlu ps = some (ch, p) →
      ch ∈ ms ∧ ch ∉ used ∧ (tlu = [] ∨ [ch] ≠ tlu) ∧
        (p = [ch] ∨ ∃ o, p = [o] ∧ o.toLower = ch) := by
  intro ps
  induction ps with
  | nil => intro ch p h; exact absurd h (by simp [per_cand_scan])
  | cons pos rest ih =>
    intro ch p h
    rw [per_cand_scan] at h
    split at h
    · rename_i c hpos
      split at h
      · exact ih h
      · split at h
        · rename_i hcond
          injection h with h2
          injection h2 with hc hp
          subst hc
          subst hp
          have hmem : c ∈ ms := List.getElem?_mem hpos
          have hcond' : c ∉ used ∧ (tlu = [] ∨ [c] ≠ tlu) := by
            have hs := hcond
            simp only [Bool.and_eq_true, Bool.or_eq_true, bne_iff_ne, ne_eq,
              Bool.not_eq_true', List.isEmpty_iff] at hs
            rw [show (used.contains c = false) ↔ c ∉ used by
              rw [← Bool.not_eq_true, not_iff_not]; exact List.elem_iff] at hs
            tauto
          refine ⟨hmem, hcond'.1, hcond'.2, ?_⟩
          split
          · rename_i orig_ch _
            split
            · split
              · rename_i horig
                exact Or.inr ⟨orig_ch, rfl, by simpa using horig⟩
              · exact Or.inl rfl
            · exact Or.inl rfl
          · exact Or.inl rfl
        · exact ih h
    · exact ih h

/-! ## Invariant step lemmas -/

theorem AVGood_set {idxs : List Nat} {P : Str → Prop}
    {assigned : List (Option Assignment)} {idx : Nat} {pfx : Str}
    (h : AVGood idxs P assigned) (hidx : idx ∈ idxs) (hp : P pfx) :
    AVGood idxs P (assigned.set idx (some ⟨idx, pfx⟩)) := by
  intro i a hget
  rw [List.getElem?_set] at hget
  split at hget
  · rename_i hij
    split at hget
    · have h1 := Option.some.inj (Option.some.inj hget)
      subst h1
      exact ⟨hij, hij ▸ hidx, hp⟩
    · exact absurd hget (by simp)
  · exact h i a hget

theorem AVStrong_set {tlu : Str} {used : List Char}
    {assigned : List (Option Assignment)} {idx : Nat} {ch : Char} {pfx : Str}
    (h : AVStrong tlu used assigned)
    (hfresh : ch ∉ used)
    (hpfx : pfx = [ch] ∧ ch.toLower = ch ∨ ∃ o, pfx = [o] ∧ o.toLower = ch)
    (htlu : tlu ≠ [] → pfx ≠ tlu) :
    AVStrong tlu (ch :: used) (assigned.set idx (some ⟨idx, pfx⟩)) := by
  have hlink : ∃ c, pfx = [c] ∧ c.toLower = ch := by
    rcases hpfx with ⟨h1, h2⟩ | ⟨o, h1, h2⟩
    exacts [⟨ch, h1, h2⟩, ⟨o, h1, h2⟩]
  constructor
  · intro i a hget
    rw [List.getElem?_set] at hget
    split at hget
    · split at hget
      · have h1 := Option.some.inj (Option.some.inj hget)
        subst h1
        obtain ⟨c, hc1, hc2⟩ := hlink
        exact ⟨c, hc1, by rw [hc2]; exact List.mem_cons_self _ _, htlu⟩
      · exact absurd hget (by simp)
    · obtain ⟨c, hc1, hc2, hc3⟩ := h.1 i a hget
      exact ⟨c, hc1, List.mem_cons_of_mem _ hc2, hc3⟩
  · intro i j a b hij hgi hgj
    rw [List.getElem?_set] at hgi hgj
    by_cases hdi : idx = i
    · rw [if_pos hdi] at hgi
      by_cases hdj : idx = j
      · exact absurd (hdi ▸ hdj) hij
      · rw [if_neg hdj] at hgj
        split at hgi
        · have h1 := Option.some.inj (Option.some.inj hgi)
          subst h1
          obtain ⟨c, hc1, hc2⟩ := hlink
          obtain ⟨c', hc1', hc2', _⟩ := h.1 j b hgj
          intro heq
          simp only at heq
          rw [hc1, hc1'] at heq
          have : c = c' := by injection heq
          apply hfresh
          rw [← hc2, this]
          exact hc2'
        · exact absurd hgi (by simp)
    · rw [if_neg hdi] at hgi
      by_cases hdj : idx = j
      · rw [if_pos hdj] at hgj
        split at hgj
        · have h1 := Option.some.inj (Option.some.inj hgj)
          subst h1
          obtain ⟨c, hc1, hc2⟩ := hlink
          obtain ⟨c', hc1', hc2', _⟩ := h.1 i a hgi
          intro heq
          simp only at heq
          rw [hc1, hc1'] at heq
          have : c' = c := by injection heq
          apply hfresh
          rw [← hc2, ← this]
          exact hc2'
        · exact absurd hgj (by simp)
      · rw [if_neg hdj] at hgj
        exact h.2 i j a b hij hgi hgj

theorem collapse_leading_chars_subset {m lu : Str} {c : Char}
    (h : c ∈ collapse_leading m lu) : c ∈ m ∨ c ∈ lu := by
  unfold collapse_leading at h
  split at h
  · exact Or.inl h
  · split at h
    · exact Or.inl h
    · dsimp only at h
      split at h
      · rcases List.mem_cons.mp h with h1 | h1
        · exact Or.inr (h1 ▸ List.mem_cons_self _ _)
        · exact Or.inl (List.drop_subset _ _ h1)
      · exact Or.inl h

theorem lowerClosed_ms_of {it : ElemInfo} (h1 : LowerClosed it.lower)
    (h2 : LowerClosed (lowerStr it.lu)) : LowerClosed (ms_of it) := by
  unfold ms_of
  dsimp only
  split
  · intro c hc
    rcases collapse_leading_chars_subset hc with h | h
    exacts [h1 c h, h2 c h]
  · exact h1

theorem bmm_fold_fst_spec :
    ∀ (l : List ElemInfo) (acc : (Nat → Option Str) × (Nat → Option Nat) × Nat)
      (idx : Nat) (ms : Str),
      (l.foldl
        (fun (acc : (Nat → Option Str) × (Nat → Option Nat) × Nat) it =>
          let ms := ms_of it
          ((fun i => if i = it.index then some ms else acc.1 i),
           (fun i => if i = it.index then some (lowerStr it.lu).length else acc.2.1 i),
           max acc.2.2 ms.length)) acc).1 idx = some ms →
      acc.1 idx = some ms ∨ ∃ it ∈ l, it.index = idx ∧ ms = ms_of it := by
  intro l
  induction l with
  | nil => intro acc idx ms h; exact Or.inl h
  | cons it rest ih =>
    intro acc idx ms h
    rw [List.foldl_cons] at h
    rcases ih _ idx ms h with h0 | h1
    · dsimp only at h0
      split at h0
      · rename_i hidx
        exact Or.inr ⟨it, List.mem_cons_self _ _, hidx.symm,
          (Option.some.inj h0).symm⟩
      · exact Or.inl h0
    · obtain ⟨it', hm, hi, he⟩ := h1
      exact Or.inr ⟨it', List.mem_cons_of_mem _ hm, hi, he⟩

theorem build_ms_maps_fst_spec {order : List ElemInfo} {idx : Nat} {ms : Str}
    (h : (build_ms_maps order).1 idx = some ms) :
    ∃ it ∈ order, it.index = idx ∧ ms = ms_of it := by
  unfold build_ms_maps at h
  rcases bmm_fold_fst_spec order _ idx ms h with h0 | h1
  · exact Option.noConfusion h0
  · exact h1

/-! ## Pass preservation lemmas -/

theorem offset_inner_go_good {order : List ElemInfo} {msMap : Nat → Option Str}
    {spMap : Nat → Option Nat} {offset : Nat} {tlu : Str}
    {remaining : List Nat} {usedSnap : List Char} {idxs : List Nat} {P : Str → Prop}
    (hP : ∀ c : Char, P [c]) :
    ∀ (l : List ElemInfo) (assigned : List (Option Assignment)) (used : List Char)
      (newly : List Nat),
      (∀ it ∈ l, it.index ∈ idxs) →
      AVGood idxs P assigned →
      AVGood idxs P
        (offset_inner_go order msMap spMap offset tlu remaining usedSnap
          l assigned used newly).1 := by
  intro l
  induction l with
  | nil =>
    intro assigned used newly _ h
    rw [offset_inner_go]
    exact h
  | cons it rest ih =>
    intro assigned used newly hl h
    have hl' : ∀ x ∈ rest, x.index ∈ idxs := fun x hx => hl x (List.mem_cons_of_mem _ hx)
    have hidx : it.index ∈ idxs := hl it (List.mem_cons_self _ _)
    rw [offset_inner_go]
    dsimp only
    split
    · split
      · rename_i ms hms
        split
        · rename_i ch hch
          split
          · split
            · refine ih _ _ _ hl' (AVGood_set h hidx ?_)
              rcases orig_case_pfx_spec order it.index ((spMap it.index).getD 0 + offset) ch
                with hs | ⟨o, hs, _⟩ <;> rw [hs] <;> exact hP _
            · exact ih _ _ _ hl' h
          · exact ih _ _ _ hl' h
        · exact ih _ _ _ hl' h
      · exact ih _ _ _ hl' h
    · exact ih _ _ _ hl' h

theorem offset_inner_go_strong {order : List ElemInfo} {msMap : Nat → Option Str}
    {spMap : Nat → Option Nat} {offset : Nat} {tlu : Str}
    {remaining : List Nat} {usedSnap : List Char}
    (hms : ∀ idx ms, msMap idx = some ms → LowerClosed ms)
    (hltl : LowerClosed tlu) :
    ∀ (l : List ElemInfo) (assigned : List (Option Assignment)) (used : List Char)
      (newly : List Nat),
      AVStrong tlu used assigned →
      AVStrong tlu
        (offset_inner_go order msMap spMap offset tlu remaining usedSnap
          l assigned used newly).2.1
        (offset_inner_go order msMap spMap offset tlu remaining usedSnap
          l assigned used newly).1 := by
  intro l
  induction l with
  | nil =>
    intro assigned used newly h
    rw [offset_inner_go]
    exact h
  | cons it rest ih =>
    intro assigned used newly h
    rw [offset_inner_go]
    dsimp only
    split
    · split
      · rename_i ms hmseq
        split
        · rename_i ch hch
          split
          · rename_i helig
            split
            · refine ih _ _ _ (AVStrong_set h ?_ ?_ ?_)
              · exact ((elig_iff _ _ _).mp helig).2.1
              · have hchms : ch ∈ ms := List.getElem?_mem hch
                have hlow : ch.toLower = ch := hms it.index ms hmseq ch hchms
                rcases orig_case_pfx_spec order it.index
                    ((spMap it.index).getD 0 + offset) ch with hs | ⟨o, hs, ho⟩
                · exact Or.inl ⟨hs, hlow⟩
                · exact Or.inr ⟨o, hs, ho⟩
              · intro htne
                rcases orig_case_pfx_spec order it.index
                    ((spMap it.index).getD 0 + offset) ch with hs | ⟨o, hs, ho⟩
                · rw [hs]
                  rcases ((elig_iff _ _ _).mp helig).2.2 with h1 | h1
                  · exact absurd h1 htne
                  · exact h1
                · rw [hs]
                  intro heq
                  have homem : o ∈ tlu := heq ▸ List.mem_cons_self _ _
                  have : o.toLower = o := hltl o homem
                  rcases ((elig_iff _ _ _).mp helig).2.2 with h1 | h1
                  · exact absurd h1 htne
                  · exact h1 (by rw [← ho, this, heq])
            · exact ih _ _ _ h
          · exact ih _ _ _ h
        · exact ih _ _ _ h
      · exact ih _ _ _ h
    · exact ih _ _ _ h

theorem offset_pass_go_good {order : List ElemInfo} {msMap : Nat → Option Str}
    {spMap : Nat → Option Nat} {tlu : Str} {idxs : List Nat} {P : Str → Prop}
    (hP : ∀ c : Char, P [c])
    (hord : ∀ it ∈ order, it.index ∈ idxs) :
    ∀ (offs : List Nat) (st : AllocSt),
      AVGood idxs P st.assigned →
      AVGood idxs P (offset_pass_go order msMap spMap tlu offs st).assigned := by
  intro offs
  induction offs with
  | nil => intro st h; rw [offset_pass_go]; exact h
  | cons o rest ih =>
    intro st h
    rw [offset_pass_go]
    split
    · exact h
    · exact ih _ (offset_inner_go_good hP order st.assigned st.used [] hord h)

theorem offset_pass_go_strong {order : List ElemInfo} {msMap : Nat → Option Str}
    {spMap : Nat → Option Nat} {tlu : Str}
    (hms : ∀ idx ms, msMap idx = some ms → LowerClosed ms)
    (hltl : LowerClosed tlu) :
    ∀ (offs : List Nat) (st : AllocSt),
      AVStrong tlu st.used st.assigned →
      AVStrong tlu (offset_pass_go order msMap spMap tlu offs st).used
        (offset_pass_go order msMap spMap tlu offs st).assigned := by
  intro offs
  induction offs with
  | nil => intro st h; rw [offset_pass_go]; exact h
  | cons o rest ih =>
    intro st h
    rw [offset_pass_go]
    split
    · exact h
    · exact ih _ (offset_inner_go_strong hms hltl order st.assigned st.used [] h)

theorem offset_pass_go_remaining_subset {order : List ElemInfo}
    {msMap : Nat → Option Str} {spMap : Nat → Option Nat} {tlu : Str} :
    ∀ (offs : List Nat) (st : AllocSt),
      ∀ x ∈ (offset_pass_go order msMap spMap tlu offs st).remaining,
        x ∈ st.remaining := by
  intro offs
  induction offs with
  | nil => intro st x hx; rw [offset_pass_go] at hx; exact hx
  | cons o rest ih =>
    intro st x hx
    rw [offset_pass_go] at hx
    split at hx
    · exact hx
    · have h1 := ih _ x hx
      dsimp only at h1
      split at h1
      · exact h1
      · exact List.mem_of_mem_filter h1

theorem per_cand_go_good {msMap : Nat → Option Str} {spMap : Nat → Option Nat}
    {tlu : Str} {remaining : List Nat} {idxs : List Nat} {P : Str → Prop}
    (hP : ∀ c : Char, P [c]) :
    ∀ (l : List ElemInfo) (assigned : List (Option Assignment)) (used : List Char)
      (newly : List Nat),
      (∀ it ∈ l, it.index ∈ idxs) →
      AVGood idxs P assigned →
      AVGood idxs P
        (per_cand_go msMap spMap tlu remaining l assigned used newly).1 := by
  intro l
  induction l with
  | nil => intro assigned used newly _ h; rw [per_cand_go]; exact h
  | cons it rest ih =>
    intro assigned used newly hl h
    have hl' : ∀ x ∈ rest, x.index ∈ idxs := fun x hx => hl x (List.mem_cons_of_mem _ hx)
    have hidx : it.index ∈ idxs := hl it (List.mem_cons_self _ _)
    rw [per_cand_go]
    dsimp only
    split
    · split
      · rename_i ms hms
        split
        · rename_i cp hcp
          refine ih _ _ _ hl' (AVGood_set h hidx ?_)
          rcases (per_cand_scan_spec hcp).2.2.2 with hs | ⟨o, hs, _⟩ <;>
            rw [hs] <;> exact hP _
        · exact ih _ _ _ hl' h
      · exact ih _ _ _ hl' h
    · exact ih _ _ _ hl' h

theorem per_cand_go_strong {msMap : Nat → Option Str} {spMap : Nat → Option Nat}
    {tlu : Str} {remaining : List Nat}
    (hms : ∀ idx ms, msMap idx = some ms → LowerClosed ms)
    (hltl : LowerClosed tlu) :
    ∀ (l : List ElemInfo) (assigned : List (Option Assignment)) (used : List Char)
      (newly : List Nat),
      AVStrong tlu used assigned →
      AVStrong tlu (per_cand_go msMap spMap tlu remaining l assigned used newly).2.1
        (per_cand_go msMap spMap tlu remaining l assigned used newly).1 := by
  intro l
  induction l with
  | nil => intro assigned used newly h; rw [per_cand_go]; exact h
  | cons it rest ih =>
    intro assigned used newly h
    rw [per_cand_go]
    dsimp only
    split
    · split
      · rename_i ms hmseq
        split
        · rename_i cp hcp
          obtain ⟨hchms, hfresh, htl, hpfx⟩ := per_cand_scan_spec hcp
          refine ih _ _ _ (AVStrong_set h hfresh ?_ ?_)
          · have hlow : cp.1.toLower = cp.1 := hms it.index ms hmseq cp.1 hchms
            rcases hpfx with hs | ⟨o, hs, ho⟩
            · exact Or.inl ⟨hs, hlow⟩
            · exact Or.inr ⟨o, hs, ho⟩
          · intro htne
            rcases hpfx with hs | ⟨o, hs, ho⟩
            · rw [hs]
              rcases htl with h1 | h1
              · exact absurd h1 htne
              · exact h1
            · rw [hs]
              intro heq
              have homem : o ∈ tlu := heq ▸ List.mem_cons_self _ _
              have hoo : o.toLower = o := hltl o homem
              rcases htl with h1 | h1
              · exact absurd h1 htne
              · exact h1 (by rw [← ho, hoo, heq])
        · exact ih _ _ _ h
      · exact ih _ _ _ h
    · exact ih _ _ _ h

theorem per_candidate_pass_good {order : List ElemInfo} {msMap : Nat → Option Str}
    {spMap : Nat → Option Nat} {tlu : Str} {idxs : List Nat} {P : Str → Prop}
    (hP : ∀ c : Char, P [c])
    (hord : ∀ it ∈ order, it.index ∈ idxs) (st : AllocSt)
    (h : AVGood idxs P st.assigned) :
    AVGood idxs P (per_candidate_pass order msMap spMap tlu st).assigned :=
  per_cand_go_good hP order st.assigned st.used [] hord h

theorem per_candidate_pass_strong {order : List ElemInfo} {msMap : Nat → Option Str}
    {spMap : Nat → Option Nat} {tlu : Str}
    (hms : ∀ idx ms, msMap idx = some ms → LowerClosed ms)
    (hltl : LowerClosed tlu) (st : AllocSt)
    (h : AVStrong tlu st.used st.assigned) :
    AVStrong tlu (per_candidate_pass order msMap spMap tlu st).used
      (per_candidate_pass order msMap spMap tlu st).assigned :=
  per_cand_go_strong hms hltl order st.assigned st.used [] h

theorem per_candidate_pass_remaining_subset {order : List ElemInfo}
    {msMap : Nat → Option Str} {spMap : Nat → Option Nat} {tlu : Str} (st : AllocSt) :
    ∀ x ∈ (per_candidate_pass order msMap spMap tlu st).remaining,
      x ∈ st.remaining := by
  intro x hx
  unfold per_candidate_pass at hx
  dsimp only at hx
  split at hx
  · exact hx
  · exact List.mem_of_mem_filter hx

theorem last_resort_chosen_singleton {order : List ElemInfo} {tlu : Str}
    {idx : Nat} {ms : Str} {p : Str}
    (h : last_resort_chosen order tlu idx ms = some p) : ∃ c, p = [c] := by
  unfold last_resort_chosen at h
  split at h
  · split at h
    · dsimp only at h
      split at h
      · rename_i p0 hfo
        cases Option.some.inj h
        split at hfo
        · split at hfo
          · split at hfo
            · split at hfo
              · exact ⟨_, (Option.some.inj hfo).symm⟩
              · exact Option.noConfusion hfo
            · exact Option.noConfusion hfo
          · exact Option.noConfusion hfo
        · exact Option.noConfusion hfo
      · exact ⟨_, (Option.some.inj h).symm⟩
    · split at h
      · exact ⟨_, (Option.some.inj h).symm⟩
      · exact ⟨_, (Option.some.inj h).symm⟩
  · exact Option.noConfusion h

theorem last_resort_go_good {order : List ElemInfo} {msMap : Nat → Option Str}
    {tlu : Str} {idxs : List Nat} {P : Str → Prop}
    (hP : ∀ c : Char, P [c])
    (hfb : ∀ o ∈ order, P (if o.lu = ['-', '-'] then ['-'] else o.lu)) :
    ∀ (rem : List Nat) (assigned : List (Option Assignment)),
      (∀ idx ∈ rem, idx ∈ idxs) →
      (∀ idx ∈ rem, ∃ o ∈ order, o.index = idx) →
      AVGood idxs P assigned →
      AVGood idxs P (last_resort_go order msMap tlu rem assigned) := by
  intro rem
  induction rem with
  | nil => intro assigned _ _ h; rw [last_resort_go]; exact h
  | cons idx rest ih =>
    intro assigned hrem hfind h
    have hrem' : ∀ x ∈ rest, x ∈ idxs := fun x hx => hrem x (List.mem_cons_of_mem _ hx)
    have hfind' : ∀ x ∈ rest, ∃ o ∈ order, o.index = x :=
      fun x hx => hfind x (List.mem_cons_of_mem _ hx)
    have hidx : idx ∈ idxs := hrem idx (List.mem_cons_self _ _)
    rw [last_resort_go]
    split
    · exact ih _ hrem' hfind' h
    · split
      · rename_i p hchosen
        obtain ⟨c, hc⟩ := last_resort_chosen_singleton hchosen
        exact ih _ hrem' hfind' (AVGood_set h hidx (hc ▸ hP c))
      · obtain ⟨o, ho, hoi⟩ := hfind idx (List.mem_cons_self _ _)
        have hfo : order.find? (fun x => x.index == idx) = some
            ((order.find? (fun x => x.index == idx)).get (by
              rw [List.find?_isSome]
              exact ⟨o, ho, by simp [hoi]⟩)) := by
          simp
        set o' := (order.find? (fun x => x.index == idx)).get (by
          rw [List.find?_isSome]
          exact ⟨o, ho, by simp [hoi]⟩) with ho'
        have ho'mem : o' ∈ order := List.mem_of_find?_eq_some hfo
        dsimp only
        rw [hfo]
        refine ih _ hrem' hfind' (AVGood_set h hidx ?_)
        simpa using hfb o' ho'mem

/-! ## Allocator-level lemmas -/

theorem AVGood_init {idxs : List Nat} {P : Str → Prop} {n : Nat} :
    AVGood idxs P (List.replicate n none) := by
  intro i a h
  rw [List.getElem?_replicate] at h
  split at h
  · exact Option.noConfusion (Option.some.inj h)
  · exact Option.noConfusion h

theorem AVStrong_init {tlu : Str} {n : Nat} :
    AVStrong tlu [] (List.replicate n none) := by
  constructor
  · intro i a h
    rw [List.getElem?_replicate] at h
    split at h
    · exact Option.noConfusion (Option.some.inj h)
    · exact Option.noConfusion h
  · intro i j a b _ hi _
    rw [List.getElem?_replicate] at hi
    split at hi
    · exact Option.noConfusion (Option.some.inj hi)
    · exact Option.noConfusion hi

theorem mem_filterMap_id_iff {l : List (Option Assignment)} {a : Assignment} :
    a ∈ l.filterMap id ↔ ∃ i : Nat, l[i]? = some (some a) := by
  rw [List.mem_filterMap]
  constructor
  · rintro ⟨o, ho, hoa⟩
    cases o with
    | none => exact Option.noConfusion hoa
    | some b =>
      have : b = a := Option.some.inj hoa
      subst this
      obtain ⟨i, hi⟩ := List.mem_iff_getElem?.mp ho
      exact ⟨i, hi⟩
  · rintro ⟨i, hi⟩
    exact ⟨some a, List.mem_iff_getElem?.mpr ⟨i, hi⟩, rfl⟩

/-- The state after the offset and per-candidate passes satisfies `AVGood`. -/
theorem filtered_passes_good {candidates : List ElemInfo} {tl : Str} {n : Nat}
    {P : Str → Prop} (hP : ∀ c : Char, P [c]) :
    AVGood ((candidates.insertionSort elemLe).map (·.index)) P
      (filtered_passes candidates tl n).assigned := by
  unfold filtered_passes
  dsimp only
  have hord : ∀ it ∈ candidates.insertionSort elemLe,
      it.index ∈ (candidates.insertionSort elemLe).map (·.index) :=
    fun it h => List.mem_map_of_mem _ h
  have h1 := @offset_pass_go_good (candidates.insertionSort elemLe)
    ((build_ms_maps (candidates.insertionSort elemLe)).1)
    ((build_ms_maps (candidates.insertionSort elemLe)).2.1)
    (compute_typed_left_unit tl) _ _ hP hord
    (List.range (build_ms_maps (candidates.insertionSort elemLe)).2.2)
    ⟨List.replicate n none, [], (candidates.insertionSort elemLe).map (·.index)⟩
    AVGood_init
  split
  · exact h1
  · exact per_candidate_pass_good hP hord _ h1

/-- The state after the offset and per-candidate passes satisfies `AVStrong`. -/
theorem filtered_passes_strong {candidates : List ElemInfo} {tl : Str} {n : Nat}
    (hld : ∀ it ∈ candidates, LowerClosed it.lower ∧ LowerClosed (lowerStr it.lu))
    (hltl : LowerClosed (compute_typed_left_unit tl)) :
    AVStrong (compute_typed_left_unit tl) (filtered_passes candidates tl n).used
      (filtered_passes candidates tl n).assigned := by
  unfold filtered_passes
  dsimp only
  have hms : ∀ idx ms, (build_ms_maps (candidates.insertionSort elemLe)).1 idx = some ms →
      LowerClosed ms := by
    intro idx ms h
    obtain ⟨it, hit, _, hmseq⟩ := build_ms_maps_fst_spec h
    have hitc : it ∈ candidates := (List.perm_insertionSort elemLe candidates).mem_iff.mp hit
    exact hmseq ▸ lowerClosed_ms_of (hld it hitc).1 (hld it hitc).2
  have h1 := @offset_pass_go_strong (candidates.insertionSort elemLe) _
    ((build_ms_maps (candidates.insertionSort elemLe)).2.1) _ hms hltl
    (List.range (build_ms_maps (candidates.insertionSort elemLe)).2.2)
    ⟨List.replicate n none, [], (candidates.insertionSort elemLe).map (·.index)⟩
    AVStrong_init
  split
  · exact h1
  · exact per_candidate_pass_strong hms hltl _ h1

theorem filtered_passes_remaining_subset {candidates : List ElemInfo} {tl : Str}
    {n : Nat} :
    ∀ x ∈ (filtered_passes candidates tl n).remaining,
      x ∈ (candidates.insertionSort elemLe).map (·.index) := by
  unfold filtered_passes
  dsimp only
  intro x hx
  split at hx
  · exact offset_pass_go_remaining_subset _ _ x hx
  · have h1 := per_candidate_pass_remaining_subset _ x hx
    exact offset_pass_go_remaining_subset _ _ x h1

/-- Every assignment returned by the filtered allocator belongs to one of the
input candidates and satisfies `P` (for any `P` holding on single characters
and on the left-unit fallbacks). -/
theorem adf_mem {candidates : List ElemInfo} {tl : Str} {n : Nat}
    {P : Str → Prop} (hP : ∀ c : Char, P [c])
    (hfb : ∀ it ∈ candidates, P (if it.lu = ['-', '-'] then ['-'] else it.lu)) :
    ∀ a ∈ allocate_disambiguators_filtered candidates tl n,
      (∃ it ∈ candidates, it.index = a.index) ∧ P a.pfx := by
  intro a ha
  unfold allocate_disambiguators_filtered at ha
  dsimp only at ha
  have hgood : AVGood ((candidates.insertionSort elemLe).map (·.index)) P
      (if (filtered_passes candidates tl n).remaining.isEmpty then
        (filtered_passes candidates tl n).assigned
      else
        last_resort_go (candidates.insertionSort elemLe)
          (build_ms_maps (candidates.insertionSort elemLe)).1
          (compute_typed_left_unit tl)
          (filtered_passes candidates tl n).remaining
          (filtered_passes candidates tl n).assigned) := by
    split
    · exact filtered_passes_good hP
    · refine last_resort_go_good hP ?_ _ _ ?_ ?_ (filtered_passes_good hP)
      · intro o ho
        exact hfb o ((List.perm_insertionSort elemLe candidates).mem_iff.mp ho)
      · exact fun idx h => filtered_passes_remaining_subset idx h
      · intro idx h
        have h1 := filtered_passes_remaining_subset idx h
        obtain ⟨it, hit, hiteq⟩ := List.mem_map.mp h1
        exact ⟨it, hit, hiteq⟩
  obtain ⟨i, hi⟩ := mem_filterMap_id_iff.mp ha
  obtain ⟨hidx, hmem, hp⟩ := hgood i a hi
  obtain ⟨it, hit, hiteq⟩ := List.mem_map.mp hmem
  exact ⟨⟨it, (List.perm_insertionSort elemLe candidates).mem_iff.mp hit,
    hidx ▸ hiteq⟩, hp⟩

theorem AVPlain_set {used : List Char} {assigned : List (Option Assignment)}
    {idx : Nat} {ch : Char}
    (h : AVPlain used assigned) (hfresh : ch ∉ used) :
    AVPlain (ch :: used) (assigned.set idx (some ⟨idx, [ch]⟩)) := by
  constructor
  · intro i a hget
    rw [List.getElem?_set] at hget
    split at hget
    · split at hget
      · have h1 := Option.some.inj (Option.some.inj hget)
        subst h1
        exact ⟨ch, rfl, List.mem_cons_self _ _⟩
      · exact absurd hget (by simp)
    · obtain ⟨c, hc1, hc2⟩ := h.1 i a hget
      exact ⟨c, hc1, List.mem_cons_of_mem _ hc2⟩
  · intro i j a b hij hgi hgj
    rw [List.getElem?_set] at hgi hgj
    by_cases hdi : idx = i
    · rw [if_pos hdi] at hgi
      by_cases hdj : idx = j
      · exact absurd (hdi ▸ hdj) hij
      · rw [if_neg hdj] at hgj
        split at hgi
        · have h1 := Option.some.inj (Option.some.inj hgi)
          subst h1
          obtain ⟨c', hc1', hc2'⟩ := h.1 j b hgj
          intro heq
          simp only at heq
          rw [hc1'] at heq
          exact hfresh (by rw [show ch = c' by injection heq]; exact hc2')
        · exact absurd hgi (by simp)
    · rw [if_neg hdi] at hgi
      by_cases hdj : idx = j
      · rw [if_pos hdj] at hgj
        split at hgj
        · have h1 := Option.some.inj (Option.some.inj hgj)
          subst h1
          obtain ⟨c', hc1', hc2'⟩ := h.1 i a hgi
          intro heq
          simp only at heq
          rw [hc1'] at heq
          exact hfresh (by rw [show ch = c' by injection heq.symm]; exact hc2')
        · exact absurd hgj (by simp)
      · rw [if_neg hdj] at hgj
        exact h.2 i j a b hij hgi hgj

theorem alloc_plain_go_good {tl tlu : Str} {idxs : List Nat} {P : Str → Prop}
    (hP : ∀ c : Char, P [c]) (hPt : P tlu) :
    ∀ (l : List ElemInfo) (used : List Char) (assigned : List (Option Assignment)),
      (∀ it ∈ l, it.index ∈ idxs) →
      AVGood idxs P assigned →
      AVGood idxs P (alloc_plain_go tl tlu l used assigned) := by
  intro l
  induction l with
  | nil => intro used assigned _ h; rw [alloc_plain_go]; exact h
  | cons cand rest ih =>
    intro used assigned hl h
    have hl' : ∀ x ∈ rest, x.index ∈ idxs := fun x hx => hl x (List.mem_cons_of_mem _ hx)
    have hidx : cand.index ∈ idxs := hl cand (List.mem_cons_self _ _)
    rw [alloc_plain_go]
    split
    · exact ih _ _ hl' (AVGood_set h hidx (hP _))
    · split
      · exact ih _ _ hl' (AVGood_set h hidx (hP _))
      · split
        · exact ih _ _ hl' (AVGood_set h hidx hPt)
        · rename_i htlu
          have : tlu = [] := by simpa using htlu
          exact ih _ _ hl' (AVGood_set h hidx (this ▸ hPt))

theorem alloc_plain_go_fresh {tl tlu : Str} :
    ∀ (l : List ElemInfo) (used : List Char) (assigned : List (Option Assignment)),
      plain_all_fresh l used = true →
      AVPlain used assigned →
      ∃ used', AVPlain used' (alloc_plain_go tl tlu l used assigned) := by
  intro l
  induction l with
  | nil => intro used assigned _ h; rw [alloc_plain_go]; exact ⟨used, h⟩
  | cons cand rest ih =>
    intro used assigned hfresh h
    rw [plain_all_fresh] at hfresh
    rw [alloc_plain_go]
    split
    · rename_i ar har
      rw [har] at hfresh
      have harP := List.find?_some har
      have har_used : ar ∉ used := by
        simp only [Bool.and_eq_true, Bool.not_eq_true'] at harP
        intro hmem
        have := harP.2
        rw [show used.contains ar = true from List.elem_iff.mpr hmem] at this
        exact Bool.noConfusion this
      exact ih _ _ hfresh (AVPlain_set h har_used)
    · rename_i hnone
      rw [hnone] at hfresh
      exact Bool.noConfusion hfresh

/-- Every assignment returned by the unfiltered allocator belongs to one of
the input candidates and satisfies `P`. -/
theorem ad_mem {candidates : List ElemInfo} {tl : Str} {n : Nat}
    {P : Str → Prop} (hP : ∀ c : Char, P [c])
    (hPt : P (compute_typed_left_unit tl)) :
    ∀ a ∈ allocate_disambiguators candidates tl n,
      (∃ it ∈ candidates, it.index = a.index) ∧ P a.pfx := by
  intro a ha
  unfold allocate_disambiguators at ha
  dsimp only at ha
  have hord : ∀ it ∈ candidates.insertionSort elemLe,
      it.index ∈ (candidates.insertionSort elemLe).map (·.index) :=
    fun it h => List.mem_map_of_mem _ h
  have hgood := @alloc_plain_go_good tl _ _ _ hP hPt
    (candidates.insertionSort elemLe) [] (List.replicate n none) hord AVGood_init
  obtain ⟨i, hi⟩ := mem_filterMap_id_iff.mp ha
  obtain ⟨hidx, hmem, hp⟩ := hgood i a hi
  obtain ⟨it, hit, hiteq⟩ := List.mem_map.mp hmem
  exact ⟨⟨it, (List.perm_insertionSort elemLe candidates).mem_iff.mp hit,
    hidx ▸ hiteq⟩, hp⟩

theorem pairwise_filterMap_of_positional :
    ∀ {l : List (Option Assignment)},
      (∀ (i j : Nat) (a b : Assignment), i ≠ j → l[i]? = some (some a) →
        l[j]? = some (some b) → a.pfx ≠ b.pfx) →
      (l.filterMap id).Pairwise (fun a b => a.pfx ≠ b.pfx) := by
  intro l
  induction l with
  | nil => intro _; simp
  | cons o rest ih =>
    intro h
    have hrest : ∀ (i j : Nat) (a b : Assignment), i ≠ j → rest[i]? = some (some a) →
        rest[j]? = some (some b) → a.pfx ≠ b.pfx := by
      intro i j a b hij hi hj
      exact h (i + 1) (j + 1) a b (by omega) (by simpa) (by simpa)
    cases o with
    | none =>
      have : (none :: rest).filterMap id = rest.filterMap id := by
        simp [List.filterMap_cons]
      rw [this]
      exact ih hrest
    | some a0 =>
      have : (some a0 :: rest).filterMap id = a0 :: rest.filterMap id := by
        simp [List.filterMap_cons]
      rw [this]
      refine List.Pairwise.cons ?_ (ih hrest)
      intro b hb
      obtain ⟨j, hj⟩ := mem_filterMap_id_iff.mp hb
      exact h 0 (j + 1) a0 b (by omega) (by simp) (by simpa)

theorem AVPlain_init {n : Nat} : AVPlain [] (List.replicate n none) := by
  constructor
  · intro i a h
    rw [List.getElem?_replicate] at h
    split at h
    · exact Option.noConfusion (Option.some.inj h)
    · exact Option.noConfusion h
  · intro i j a b _ hi _
    rw [List.getElem?_replicate] at hi
    split at hi
    · exact Option.noConfusion (Option.some.inj hi)
    · exact Option.noConfusion hi

theorem lowerClosed_leftmost_unit {s : Str} (h : LowerClosed s) :
    LowerClosed (leftmost_unit s) := by
  unfold leftmost_unit
  split
  · intro c hc
    have hcm : c = '-' := by
      rcases List.mem_cons.mp hc with h1 | h1
      · exact h1
      · rcases List.mem_cons.mp h1 with h2 | h2
        · exact h2
        · exact absurd h2 (List.not_mem_nil c)
    rw [hcm]
    decide
  · rename_i hd tl hcon
    intro c hc
    have hcm : c = hd := by
      rcases List.mem_cons.mp hc with h1 | h1
      · exact h1
      · exact absurd h1 (List.not_mem_nil c)
    rw [hcm]
    exact h hd (List.mem_cons_self _ _)
  · intro c hc
    exact absurd hc (List.not_mem_nil c)

theorem adf_of_remaining_empty {candidates : List ElemInfo} {tl : Str} {n : Nat}
    (h : (filtered_passes candidates tl n).remaining = []) :
    allocate_disambiguators_filtered candidates tl n =
      (filtered_passes candidates tl n).assigned.filterMap id := by
  unfold allocate_disambiguators_filtered
  dsimp only
  rw [if_pos (by rw [h]; rfl)]

/-- Claim C1, amended: the non-empty disambiguators returned by one allocator
run are pairwise distinct provided no candidate falls through to the
exhaustion fallbacks — for the filtered allocator, provided the offset and
contiguous passes leave no candidate to the last-resort pass; for the
unfiltered allocator, provided every candidate claims a fresh character.
(The original unconditional claim fails because the fallbacks reuse
characters, as the counterexample shows; inputs are lowercase-closed as they
are in every engine call.) -/
theorem claim_C1_amended (candidates : List ElemInfo) (typed_lower : Str) (n : Nat)
    (hld : ∀ it ∈ candidates, LowerClosed it.lower ∧ LowerClosed (lowerStr it.lu))
    (hltl : LowerClosed typed_lower) :
    ((filtered_passes candidates typed_lower n).remaining = [] →
      (allocate_disambiguators_filtered candidates typed_lower n).Pairwise
        (fun a b => a.pfx ≠ [] → b.pfx ≠ [] → a.pfx ≠ b.pfx)) ∧
    (plain_all_fresh (candidates.insertionSort elemLe) [] = true →
      (allocate_disambiguators candidates typed_lower n).Pairwise
        (fun a b => a.pfx ≠ [] → b.pfx ≠ [] → a.pfx ≠ b.pfx)) := by
  constructor
  · intro hrem
    rw [adf_of_remaining_empty hrem]
    have hstrong := filtered_passes_strong (n := n) hld (lowerClosed_leftmost_unit hltl)
    exact (pairwise_filterMap_of_positional
      (fun i j a b hij hi hj => hstrong.2 i j a b hij hi hj)).imp
      (fun h _ _ => h)
  · intro hfresh
    have heq : allocate_disambiguators candidates typed_lower n =
        (alloc_plain_go typed_lower (compute_typed_left_unit typed_lower)
          (candidates.insertionSort elemLe) []
          (List.replicate n none)).filterMap id := rfl
    rw [heq]
    obtain ⟨used', hplain⟩ :=
      alloc_plain_go_fresh (candidates.insertionSort elemLe) []
        (List.replicate n none) hfresh AVPlain_init
    exact (pairwise_filterMap_of_positional
      (fun i j a b hij hi hj => hplain.2 i j a b hij hi hj)).imp
      (fun h _ _ => h)

/-- Witness for the amended claim C1: the spec's own example pool, where no
candidate reaches a fallback and all disambiguators are distinct. -/
theorem claim_C1_amended_witness :
    (filtered_passes (build_infos ["chcpu".data, "chpasswd".data, "chsh".data])
      "c".data 3).remaining = [] ∧
    (allocate_disambiguators_filtered
      (build_infos ["chcpu".data, "chpasswd".data, "chsh".data]) "c".data 3).Pairwise
        (fun a b => a.pfx ≠ [] → b.pfx ≠ [] → a.pfx ≠ b.pfx) :=
  ⟨by decide,
   (claim_C1_amended (build_infos ["chcpu".data, "chpasswd".data, "chsh".data])
     "c".data 3 (by decide) (by decide)).1 (by decide)⟩

/-- Claim C2, amended: among the assignments produced by the filtered
allocator, when no candidate falls through to the last-resort pass, no
disambiguator equals the typed left unit.  (Outside this scope the anchor may
be reused, and not only in exhaustion fallbacks: the last-resort pass may
return the anchor itself for a candidate with no other usable character —
e.g. the doubled-marker pool — and the unfiltered allocator reuses the anchor
both from its main contiguous scan, whose character claiming has no
anchor-exclusion check, and from its left-unit fallback; the counterexample
exhibits the last-resort and main-scan cases.) -/
theorem claim_C2_amended (candidates : List ElemInfo) (typed_lower : Str) (n : Nat)
    (hld : ∀ it ∈ candidates, LowerClosed it.lower ∧ LowerClosed (lowerStr it.lu))
    (hltl : LowerClosed typed_lower)
    (htlu : compute_typed_left_unit typed_lower ≠ [])
    (hrem : (filtered_passes candidates typed_lower n).remaining = []) :
    ∀ a ∈ allocate_disambiguators_filtered candidates typed_lower n,
      a.pfx ≠ compute_typed_left_unit typed_lower := by
  intro a ha
  rw [adf_of_remaining_empty hrem] at ha
  obtain ⟨i, hi⟩ := mem_filterMap_id_iff.mp ha
  obtain ⟨c, _, _, hc3⟩ :=
    (filtered_passes_strong (n := n) hld (lowerClosed_leftmost_unit hltl)).1 i a hi
  exact hc3 htlu

/-- Witness for the amended claim C2: in the spec's example pool no returned
disambiguator equals the typed left unit `c`. -/
theorem claim_C2_amended_witness :
    (filtered_passes (build_infos ["chcpu".data, "chpasswd".data, "chsh".data])
      "c".data 3).remaining = [] ∧
    (∀ a ∈ allocate_disambiguators_filtered
      (build_infos ["chcpu".data, "chpasswd".data, "chsh".data]) "c".data 3,
      a.pfx ≠ compute_typed_left_unit "c".data) :=
  ⟨by decide,
   claim_C2_amended (build_infos ["chcpu".data, "chpasswd".data, "chsh".data])
     "c".data 3 (by decide) (by decide) (by decide) (by decide)⟩

/-! ## Fast-path lemmas -/

theorem leftmost_unit_isPrefixOf (s : Str) :
    (leftmost_unit s).isPrefixOf s = true := by
  unfold leftmost_unit
  split
  · rename_i t
    simp [List.isPrefixOf]
  · rename_i hd tl hcon
    simp [List.isPrefixOf]
  · simp [List.isPrefixOf]

theorem abfkm_none_of_le {infos : List ElemInfo} {tlu tc tl : Str}
    (h : tl.length ≤ tlu.length) :
    attempt_base_full_key_match infos tlu tc tl = none := by
  unfold attempt_base_full_key_match
  by_cases h0 : tlu = []
  · rw [if_pos h0]
  · rw [if_neg h0, if_pos h]

theorem ecp_some {cands : List ElemInfo} {tc : Str} {a : Assignment}
    (h : exact_case_precedence cands tc = some a) :
    ∃ it ∈ cands, it.index = a.index ∧ a.pfx = [] := by
  unfold exact_case_precedence at h
  split at h
  · exact Option.noConfusion h
  · split at h
    · rename_i it heq
      have := Option.some.inj h
      subst this
      refine ⟨it, ?_, rfl, rfl⟩
      have : it ∈ cands.filter (fun it => tc.isPrefixOf it.clean) := by
        rw [heq]; exact List.mem_cons_self _ _
      exact List.mem_of_mem_filter this
    · exact Option.noConfusion h

theorem bts_some {tlu tl : Str} :
    ∀ {l : List ElemInfo} {used : List Char} {res : List Assignment},
      base_typed_scan tlu tl l used = some res →
      ∃ bc ∈ l, res = [⟨bc.index, []⟩] := by
  intro l
  induction l with
  | nil => intro used res h; exact absurd h (by rw [base_typed_scan]; simp)
  | cons bc rest ih =>
    intro used res h
    rw [base_typed_scan] at h
    split at h
    · split at h
      · have := Option.some.inj h
        subst this
        exact ⟨bc, List.mem_cons_self _ _, rfl⟩
      · obtain ⟨bc', hm, he⟩ := ih h
        exact ⟨bc', List.mem_cons_of_mem _ hm, he⟩
    · obtain ⟨bc', hm, he⟩ := ih h
      exact ⟨bc', List.mem_cons_of_mem _ hm, he⟩

theorem abts_some {infos : List ElemInfo} {tl tlu : Str} {res : List Assignment}
    (h : attempt_base_typed_selection_when_no_candidates infos tl tlu = some res) :
    ∃ bc ∈ infos, res = [⟨bc.index, []⟩] := by
  unfold attempt_base_typed_selection_when_no_candidates at h
  split at h
  · exact Option.noConfusion h
  · split at h
    · exact Option.noConfusion h
    · dsimp only at h
      split at h
      · exact Option.noConfusion h
      · obtain ⟨bc, hm, he⟩ := bts_some h
        have hm2 := (List.perm_insertionSort elemLe _).mem_iff.mp hm
        exact ⟨bc, List.mem_of_mem_filter (List.mem_of_mem_filter hm2), he⟩

/-! ## Narrowing lemmas -/

theorem narrow_go_spec {ba : List Assignment} {tlu : Str} {n : Nat} :
    ∀ (toks : List Char) (i : Nat) (narrowed : List ElemInfo) (consumed : Bool),
      (i = 0 → ∀ a ∈ ba, ∃ it ∈ narrowed, it.index = a.index) →
      (consumed = true → narrowed ≠ []) →
      (∀ v, narrow_go ba tlu n toks i narrowed consumed = .selected v →
        ∃ it ∈ narrowed, it.index = v) ∧
      (∀ c s, narrow_go ba tlu n toks i narrowed consumed = .narrowed c s →
        (∀ x ∈ s, x ∈ narrowed) ∧ (c = true → s ≠ [])) := by
  intro toks
  induction toks with
  | nil =>
    intro i narrowed consumed _ hcons
    rw [narrow_go]
    constructor
    · intro v h
      exact NarrowOutcome.noConfusion h
    · intro c s h
      injection h with h1 h2
      subst h1
      subst h2
      exact ⟨fun x hx => hx, hcons⟩
  | cons token rest ih =>
    intro i narrowed consumed hbase hcons
    rw [narrow_go]
    split
    · constructor
      · intro v h
        exact NarrowOutcome.noConfusion h
      · intro c s h
        injection h with h1 h2
        subst h1
        subst h2
        exact ⟨fun x hx => hx, hcons⟩
    · rename_i hlen
      dsimp only
      have hassigns : ∀ a ∈ (if i = 0 then ba
          else allocate_disambiguators_filtered narrowed tlu n),
          ∃ it ∈ narrowed, it.index = a.index := by
        split
        · rename_i hi0
          exact hbase hi0
        · intro a ha
          exact (adf_mem (P := fun _ => True) (fun _ => trivial)
            (fun _ _ => trivial) a ha).1
      set assigns := (if i = 0 then ba
        else allocate_disambiguators_filtered narrowed tlu n) with hassigns_def
      set matching := (assigns.filter (fun a => lowerStr a.pfx = [token])).map (·.index)
        with hmatching_def
      have hmatching_mem : ∀ m ∈ matching, ∃ it ∈ narrowed, it.index = m := by
        intro m hm
        obtain ⟨a, ha, hai⟩ := List.mem_map.mp hm
        exact hai ▸ hassigns a (List.mem_of_mem_filter ha)
      split
      · constructor
        · intro v h
          exact NarrowOutcome.noConfusion h
        · intro c s h
          injection h with h1 h2
          subst h1
          subst h2
          exact ⟨fun x hx => hx, hcons⟩
      · rename_i hne
        split
        · rename_i hone
          constructor
          · intro v h
            injection h with h1
            obtain ⟨m, hm⟩ := List.length_eq_one.mp hone
            have : matching.headD 0 = m := by rw [hm]; rfl
            rw [← h1, this]
            exact hmatching_mem m (by rw [hm]; exact List.mem_cons_self _ _)
          · intro c s h
            exact NarrowOutcome.noConfusion h
        · have hfilter_sub : ∀ x ∈ narrowed.filter
              (fun it => matching.contains it.index), x ∈ narrowed :=
            fun x hx => List.mem_of_mem_filter hx
          have hfilter_ne : narrowed.filter
              (fun it => matching.contains it.index) ≠ [] := by
            obtain ⟨m, hm⟩ := List.exists_mem_of_ne_nil matching hne
            obtain ⟨it, hit, hiteq⟩ := hmatching_mem m hm
            intro hnil
            have : it ∈ narrowed.filter (fun it => matching.contains it.index) := by
              rw [List.mem_filter]
              exact ⟨hit, by rw [List.elem_iff]; rw [hiteq]; exact hm⟩
            rw [hnil] at this
            exact List.not_mem_nil it this
          have hih := ih (i + 1)
            (narrowed.filter (fun it => matching.contains it.index)) true
            (fun h0 => absurd h0 (Nat.succ_ne_zero i))
            (fun _ => hfilter_ne)
          constructor
          · intro v h
            obtain ⟨it, hit, hiteq⟩ := hih.1 v h
            exact ⟨it, hfilter_sub it hit, hiteq⟩
          · intro c s h
            obtain ⟨hsub, hcne⟩ := hih.2 c s h
            exact ⟨fun x hx => hfilter_sub x (hsub x hx), hcne⟩

theorem token_narrow_selected {infos : List ElemInfo} {tlu tl : Str} {n : Nat}
    {v : Nat} (h : token_narrow infos tlu tl n = .selected v) :
    ∃ it ∈ infos, it.index = v := by
  unfold token_narrow at h
  split at h
  · dsimp only at h
    split at h
    · exact NarrowOutcome.noConfusion h
    · have hbase : (0 : Nat) = 0 → ∀ a ∈ allocate_disambiguators_filtered
          (infos.filter fun it => base_lu_match tlu (lowerStr it.lu)) tlu n,
          ∃ it ∈ infos.filter (fun it => base_lu_match tlu (lowerStr it.lu)),
            it.index = a.index := by
        intro _ a ha
        exact (adf_mem (P := fun _ => True) (fun _ => trivial)
          (fun _ _ => trivial) a ha).1
      obtain ⟨it, hit, hiteq⟩ :=
        (narrow_go_spec _ 0 _ false hbase (fun hf => Bool.noConfusion hf)).1 v h
      exact ⟨it, List.mem_of_mem_filter hit, hiteq⟩
  · exact NarrowOutcome.noConfusion h

theorem token_narrow_narrowed {infos : List ElemInfo} {tlu tl : Str} {n : Nat}
    {c : Bool} {s : List ElemInfo}
    (h : token_narrow infos tlu tl n = .narrowed c s) :
    (∀ x ∈ s, x ∈ infos) ∧ (c = true → s ≠ []) := by
  unfold token_narrow at h
  split at h
  · dsimp only at h
    split at h
    · injection h with h1 h2
      subst h1
      subst h2
      exact ⟨fun x hx => absurd hx (List.not_mem_nil x),
        fun hf => Bool.noConfusion hf⟩
    · have hbase : (0 : Nat) = 0 → ∀ a ∈ allocate_disambiguators_filtered
          (infos.filter fun it => base_lu_match tlu (lowerStr it.lu)) tlu n,
          ∃ it ∈ infos.filter (fun it => base_lu_match tlu (lowerStr it.lu)),
            it.index = a.index := by
        intro _ a ha
        exact (adf_mem (P := fun _ => True) (fun _ => trivial)
          (fun _ _ => trivial) a ha).1
      obtain ⟨hsub, hne⟩ :=
        (narrow_go_spec _ 0 _ false hbase (fun hf => Bool.noConfusion hf)).2 c s h
      exact ⟨fun x hx => List.mem_of_mem_filter (hsub x hx), hne⟩
  · injection h with h1 h2
    subst h1
    subst h2
    exact ⟨fun x hx => absurd hx (List.not_mem_nil x),
      fun hf => Bool.noConfusion hf⟩

/-! ## Path analysis of the engine -/

theorem aakm_paths {count : Nat} {infos : List ElemInfo} {tc tl tlu : Str}
    {l : List Assignment}
    (hwf : ∀ it ∈ infos, it.index < count ∧ it.lu ≠ [])
    (htl : tl ≠ [])
    (hres : assign_ace_keys_main count infos tc tl tlu = some l) :
    (∀ a ∈ l, a.index < count) ∧ (l.length = 1 ∨ ∀ a ∈ l, a.pfx ≠ []) := by
  have hne : ∀ (c : Char), ([c] : Str) ≠ [] := by intro c; simp
  unfold assign_ace_keys_main at hres
  split at hres
  · rename_i i htn
    have heq := Option.some.inj hres
    subst heq
    refine ⟨?_, Or.inl rfl⟩
    intro a ha
    have ha2 : a = ⟨i, []⟩ := List.mem_singleton.mp ha
    subst ha2
    obtain ⟨it, hit, hiteq⟩ := token_narrow_selected htn
    exact hiteq ▸ (hwf it hit).1
  · rename_i consumed s htn
    dsimp only at hres
    have hcand_sub : ∀ x ∈ (if consumed = true then s
        else filter_candidates infos tl tlu), x ∈ infos := by
      split
      · exact (token_narrow_narrowed htn).1
      · exact filter_candidates_subset
    set candidates := (if consumed = true then s
      else filter_candidates infos tl tlu) with hcand_def
    split at hres
    · split at hres
      · rename_i res habts
        have heq := Option.some.inj hres
        subst heq
        refine ⟨?_, Or.inl ?_⟩
        · intro a ha
          obtain ⟨bc, hbc, he⟩ := abts_some habts
          subst he
          have ha2 : a = ⟨bc.index, []⟩ := List.mem_singleton.mp ha
          subst ha2
          exact (hwf bc hbc).1
        · obtain ⟨bc, _, he⟩ := abts_some habts
          rw [he]
          rfl
      · exact Option.noConfusion hres
    · split at hres
      · rename_i a0 hecp
        have heq := Option.some.inj hres
        subst heq
        refine ⟨?_, Or.inl rfl⟩
        intro a ha
        have ha2 : a = a0 := List.mem_singleton.mp ha
        subst ha2
        obtain ⟨it, hit, hiteq, _⟩ := ecp_some hecp
        exact hiteq ▸ (hwf it (hcand_sub it hit)).1
      · split at hres
        · have heq := Option.some.inj hres
          subst heq
          have hfb : ∀ it ∈ candidates,
              (if it.lu = ['-', '-'] then ['-'] else it.lu) ≠ [] := by
            intro it hit
            split
            · simp
            · exact (hwf it (hcand_sub it hit)).2
          refine ⟨?_, Or.inr ?_⟩
          · intro a ha
            obtain ⟨⟨it, hit, hiteq⟩, _⟩ :=
              adf_mem (P := fun p => p ≠ []) hne hfb a ha
            exact hiteq ▸ (hwf it (hcand_sub it hit)).1
          · intro a ha
            exact (adf_mem (P := fun p => p ≠ []) hne hfb a ha).2
        · have hc2_sub : ∀ x ∈ filter_exact_matches candidates tl, x ∈ infos :=
            fun x hx => hcand_sub x (filter_exact_matches_subset x hx)
          set candidates2 := filter_exact_matches candidates tl with hc2_def
          split at hres
          · rename_i hsing
            have heq := Option.some.inj hres
            subst heq
            refine ⟨?_, Or.inl rfl⟩
            intro a ha
            obtain ⟨c0, hc0⟩ := List.length_eq_one.mp hsing.1
            have hhead : candidates2.headD default = c0 := by rw [hc0]; rfl
            have ha2 : a = ⟨(candidates2.headD default).index, []⟩ :=
              List.mem_singleton.mp ha
            subst ha2
            rw [hhead]
            exact (hwf c0 (hc2_sub c0 (hc0 ▸ List.mem_cons_self _ _))).1
          · have hfb2 : ∀ it ∈ candidates2,
                (if it.lu = ['-', '-'] then ['-'] else it.lu) ≠ [] := by
              intro it hit
              split
              · simp
              · exact (hwf it (hc2_sub it hit)).2
            split at hres
            · have heq := Option.some.inj hres
              subst heq
              refine ⟨?_, Or.inr ?_⟩
              · intro a ha
                obtain ⟨⟨it, hit, hiteq⟩, _⟩ :=
                  adf_mem (P := fun p => p ≠ []) hne hfb2 a ha
                exact hiteq ▸ (hwf it (hc2_sub it hit)).1
              · intro a ha
                exact (adf_mem (P := fun p => p ≠ []) hne hfb2 a ha).2
            · have heq := Option.some.inj hres
              subst heq
              have htlu_ne : compute_typed_left_unit tl ≠ [] := by
                unfold compute_typed_left_unit
                exact leftmost_unit_ne_nil htl
              refine ⟨?_, Or.inr ?_⟩
              · intro a ha
                obtain ⟨⟨it, hit, hiteq⟩, _⟩ :=
                  ad_mem (P := fun p => p ≠ []) hne htlu_ne a ha
                exact hiteq ▸ (hwf it (hc2_sub it hit)).1
              · intro a ha
                exact (ad_mem (P := fun p => p ≠ []) hne htlu_ne a ha).2

theorem aak_paths {elements : List Str} {typed : Str} {l : List Assignment}
    (hres : assign_ace_keys elements typed = some l) :
    (∀ a ∈ l, a.index < elements.length) ∧
    (l.length = 1 ∨ ∀ a ∈ l, a.pfx ≠ []) := by
  have hwf : ∀ it ∈ build_infos elements,
      it.index < elements.length ∧ it.lu ≠ [] := by
    intro it hit
    obtain ⟨h1, h2, _, h4, _⟩ := build_infos_wf hit
    exact ⟨h1, h4 ▸ leftmost_unit_ne_nil h2⟩
  unfold assign_ace_keys assign_ace_keys_with at hres
  dsimp only at hres
  by_cases hemp : lowerStr (clean_string typed) = []
  · rw [if_pos hemp] at hres
    have heq := Option.some.inj hres
    subst heq
    constructor
    · intro a ha
      obtain ⟨ip, hip, hipe⟩ := List.mem_map.mp ha
      obtain ⟨hi, _, _⟩ := (aic_mem elements ip.1 ip.2).mp hip
      rw [← hipe]
      exact hi
    · right
      intro a ha
      obtain ⟨ip, hip, hipe⟩ := List.mem_map.mp ha
      obtain ⟨hi, hc, hp⟩ := (aic_mem elements ip.1 ip.2).mp hip
      rw [← hipe]
      simp only
      rw [hp]
      split
      · simp
      · exact leftmost_unit_ne_nil hc
  · rw [if_neg hemp] at hres
    have htlu_ne : compute_typed_left_unit (lowerStr (clean_string typed)) ≠ [] := by
      unfold compute_typed_left_unit
      exact leftmost_unit_ne_nil hemp
    have hattempt : (if ¬(compute_typed_left_unit (lowerStr (clean_string typed)) ≠ [] ∧
        (compute_typed_left_unit (lowerStr (clean_string typed))).isPrefixOf
          (lowerStr (clean_string typed)) ∧
        (compute_typed_left_unit (lowerStr (clean_string typed))).length <
          (lowerStr (clean_string typed)).length) then
        attempt_base_full_key_match (build_infos elements)
          (compute_typed_left_unit (lowerStr (clean_string typed)))
          (clean_string typed) (lowerStr (clean_string typed))
      else none) = none := by
      split
      · rename_i hG
        have hle : (lowerStr (clean_string typed)).length ≤
            (compute_typed_left_unit (lowerStr (clean_string typed))).length := by
          by_contra hlt
          exact hG ⟨htlu_ne, leftmost_unit_isPrefixOf _, by omega⟩
        exact abfkm_none_of_le hle
      · rfl
    rw [hattempt] at hres
    dsimp only at hres
    split at hres
    · rename_i a hfast
      split at hfast
      · rename_i idx hfind
        split at hfast
        · have heqa := Option.some.inj hfast
          subst heqa
          have heq := Option.some.inj hres
          subst heq
          refine ⟨?_, Or.inl rfl⟩
          intro a ha
          have ha2 : a = ⟨idx, []⟩ := List.mem_singleton.mp ha
          subst ha2
          have hidx : idx < (build_infos elements).length :=
            (List.findIdx?_eq_some_iff_findIdx_eq.mp hfind).1
          exact Nat.lt_of_lt_of_le hidx (build_infos_length_le elements)
        · exact Option.noConfusion hfast
      · exact Option.noConfusion hfast
    · split at hres
      · rename_i a hecp
        have heq := Option.some.inj hres
        subst heq
        refine ⟨?_, Or.inl rfl⟩
        intro b hb
        have hb2 : b = a := List.mem_singleton.mp hb
        subst hb2
        obtain ⟨it, hit, hiteq, _⟩ := ecp_some hecp
        exact hiteq ▸ (hwf it hit).1
      · exact aakm_paths hwf hemp hres

/-- Claim C7: if the list returned by the engine contains an assignment with
an empty disambiguator, that list has exactly one element — an empty
disambiguator (meaning "already uniquely selected") never co-occurs with
other surviving candidates. -/
theorem claim_C7 (elements : List Str) (typed : Str) (l : List Assignment)
    (hres : assign_ace_keys elements typed = some l)
    (hemp : ∃ a ∈ l, a.pfx = []) : l.length = 1 := by
  rcases (aak_paths hres).2 with h | h
  · exact h
  · obtain ⟨a, ha, hpa⟩ := hemp
    exact absurd hpa (h a ha)

/-- Witness for claim C7 at a concrete input. -/
theorem claim_C7_witness :
    assign_ace_keys ["jjui".data, "ju".data] "ju".data = some [⟨1, []⟩] ∧
    ([(⟨1, []⟩ : Assignment)] : List Assignment).length = 1 :=
  ⟨by decide,
   claim_C7 ["jjui".data, "ju".data] "ju".data [⟨1, []⟩] (by decide)
     ⟨⟨1, []⟩, List.mem_singleton.mpr rfl, rfl⟩⟩

/-- Claim C4: the engine is a total function whose partial operations are all
guarded.  Every candidate record is well-formed (its index is in range for
the assignment vector writes, its clean form and left unit are non-empty, so
the left-unit `unwrap` in `collapse_leading` is unreachable), the character
lookup guarded by the length test in `attempt_base_full_key_match` always
succeeds, and every index in a returned assignment list is in range of the
input label list. -/
theorem claim_C4 (elements : List Str) (typed : Str) :
    (∀ info ∈ build_infos elements,
      info.index < elements.length ∧ info.clean ≠ [] ∧ info.lu ≠ [] ∧
      info.lower = lowerStr info.clean ∧ info.lu = leftmost_unit info.clean) ∧
    ((compute_typed_left_unit (lowerStr (clean_string typed))).length <
        (lowerStr (clean_string typed)).length →
      (lowerStr (clean_string typed)).drop
        (compute_typed_left_unit (lowerStr (clean_string typed))).length ≠ []) ∧
    (∀ l, assign_ace_keys elements typed = some l →
      ∀ a ∈ l, a.index < elements.length) := by
  refine ⟨?_, ?_, ?_⟩
  · intro info hinfo
    obtain ⟨h1, h2, h3, h4, _⟩ := build_infos_wf hinfo
    exact ⟨h1, h2, h4 ▸ leftmost_unit_ne_nil h2, h3, h4⟩
  · intro hlt
    have : ((lowerStr (clean_string typed)).drop
        (compute_typed_left_unit (lowerStr (clean_string typed))).length).length ≠ 0 := by
      rw [List.length_drop]
      omega
    intro hnil
    rw [hnil] at this
    exact this rfl
  · intro l hres a ha
    exact (aak_paths hres).1 a ha

/-- Witness for claim C4 at a concrete input. -/
theorem claim_C4_witness :
    assign_ace_keys ["ab".data, "axy".data] "ab".data = some [⟨0, []⟩] ∧
    (∀ a ∈ ([⟨0, []⟩] : List Assignment), a.index < 2) :=
  ⟨by decide,
   fun a ha => (claim_C4 ["ab".data, "axy".data] "ab".data).2.2
     [⟨0, []⟩] (by decide) a ha⟩

/-! ## Left-unit and lowercasing lemmas -/

theorem char_toNat_ofNatAux (n : Nat) (h : n.isValidChar) :
    (Char.ofNatAux n h).toNat = n := by
  unfold Char.ofNatAux Char.toNat
  simp [UInt32.toNat]

theorem toLower_eq_dash_iff (c : Char) : c.toLower = '-' ↔ c = '-' := by
  unfold Char.toLower
  dsimp only
  split
  · rename_i h
    constructor
    · intro he
      exfalso
      have h1 : (Char.ofNat (c.toNat + 32)).toNat = 45 := by rw [he]; rfl
      have hv : (c.toNat + 32).isValidChar := Or.inl (by omega)
      rw [show Char.ofNat (c.toNat + 32) = Char.ofNatAux (c.toNat + 32) hv from
        dif_pos hv, char_toNat_ofNatAux] at h1
      omega
    · intro he
      subst he
      exact absurd h (by decide)
  · exact Iff.rfl

theorem leftmost_unit_cons (c : Char) (t : Str) :
    leftmost_unit (c :: t) =
      if c = '-' ∧ t.head? = some '-' then ['-', '-'] else [c] := by
  unfold leftmost_unit
  split
  · rename_i tail heq
    injection heq with h1 h2
    rw [if_pos ⟨h1, by rw [h2]; rfl⟩]
  · rename_i hd tail hcon heq
    injection heq with h1 h2
    subst h1
    subst h2
    rw [if_neg ?_]
    intro hh
    cases ht : t with
    | nil =>
      rw [ht] at hh
      exact Option.noConfusion hh.2
    | cons d r =>
      rw [ht] at hh
      have hd2 : d = '-' := Option.some.inj hh.2
      exact hcon r hh.1 (by rw [ht, hd2])
  · rename_i heq
    exact List.noConfusion heq

theorem lowerStr_leftmost_unit (s : Str) :
    lowerStr (leftmost_unit s) = leftmost_unit (lowerStr s) := by
  cases s with
  | nil => rfl
  | cons c t =>
    have hmap : lowerStr (c :: t) = c.toLower :: lowerStr t := rfl
    rw [leftmost_unit_cons, hmap, leftmost_unit_cons]
    by_cases hc : c = '-' ∧ t.head? = some '-'
    · rw [if_pos hc, if_pos ?_]
      · rfl
      · constructor
        · rw [hc.1]; decide
        · cases t with
          | nil => exact absurd hc.2 (by simp)
          | cons d r =>
            have hd : d = '-' := Option.some.inj hc.2
            show some d.toLower = some '-'
            rw [hd]
            rfl
    · rw [if_neg hc, if_neg ?_]
      · rfl
      · intro hh
        apply hc
        constructor
        · exact (toLower_eq_dash_iff c).mp hh.1
        · cases t with
          | nil => exact absurd hh.2 (by simp [lowerStr])
          | cons d r =>
            have : d.toLower = '-' := Option.some.inj hh.2
            show some d = some '-'
            rw [(toLower_eq_dash_iff d).mp this]

theorem leftmost_unit_of_prefix {s r : Str} (h : s <+: r) (hne : s ≠ [])
    (hnd : s ≠ ['-']) : leftmost_unit r = leftmost_unit s := by
  obtain ⟨t, rfl⟩ := h
  cases s with
  | nil => exact absurd rfl hne
  | cons c u =>
    rw [List.cons_append, leftmost_unit_cons, leftmost_unit_cons]
    by_cases hc : c = '-'
    · subst hc
      cases u with
      | nil => exact absurd rfl hnd
      | cons d v =>
        rw [List.cons_append]
        simp only [List.head?_cons]
    · rw [if_neg (fun hh => hc hh.1), if_neg (fun hh => hc hh.1)]

/-- A candidate whose clean form extends the cleaned typed buffer passes the
candidate filter. -/
theorem mem_filter_candidates_of_prefix {infos : List ElemInfo} {it : ElemInfo}
    {tc : Str} (hit : it ∈ infos)
    (hwl : it.lower = lowerStr it.clean)
    (hwu : it.lu = leftmost_unit it.clean)
    (htc : tc ≠ [])
    (hpre : tc <+: it.clean) :
    it ∈ filter_candidates infos (lowerStr tc)
      (compute_typed_left_unit (lowerStr tc)) := by
  have hlpre : lowerStr tc <+: it.lower := by
    rw [hwl]
    exact List.IsPrefix.map _ hpre
  have hlu_comm : lowerStr it.lu = leftmost_unit it.lower := by
    rw [hwu, lowerStr_leftmost_unit, ← hwl]
  unfold filter_candidates
  split
  · rename_i hdash
    rw [List.mem_filter]
    refine ⟨hit, ?_⟩
    rw [hlu_comm]
    obtain ⟨rest, hrest⟩ := hdash ▸ hlpre
    rw [← hrest]
    have : ('-' :: rest : Str) = '-' :: rest := rfl
    rw [show (['-'] : Str) ++ rest = '-' :: rest from rfl]
    rw [leftmost_unit_cons]
    split
    · simp
    · simp
  · rename_i hdash
    rw [List.mem_filter]
    refine ⟨hit, ?_⟩
    have htlne : lowerStr tc ≠ [] := by
      intro hh
      apply htc
      cases tc with
      | nil => rfl
      | cons a b => exact List.noConfusion hh
    have hlu_eq : lowerStr it.lu = compute_typed_left_unit (lowerStr tc) := by
      rw [hlu_comm]
      unfold compute_typed_left_unit
      exact leftmost_unit_of_prefix hlpre htlne hdash
    simp only [ne_eq]
    rw [if_neg (by rw [hlu_eq]; simp)]
    have hb : (lowerStr tc).isPrefixOf it.lower = true :=
      List.isPrefixOf_iff_prefix.mpr hlpre
    rw [hb]
    rfl

theorem ecp_mem_prefix {cands : List ElemInfo} {tc : Str} {a : Assignment}
    (h : exact_case_precedence cands tc = some a) :
    tc ≠ [] ∧ ∃ it ∈ cands, tc <+: it.clean := by
  unfold exact_case_precedence at h
  split at h
  · exact Option.noConfusion h
  · rename_i htc
    split at h
    · rename_i it heq
      have hmem : it ∈ cands.filter (fun it => tc.isPrefixOf it.clean) := by
        rw [heq]
        exact List.mem_cons_self _ _
      rw [List.mem_filter] at hmem
      exact ⟨htc, it, hmem.1, List.isPrefixOf_iff_prefix.mp hmem.2⟩
    · exact Option.noConfusion h

theorem aakm_none_iff {count : Nat} {infos : List ElemInfo} {tc tl tlu : Str} :
    assign_ace_keys_main count infos tc tl tlu = none ↔
      (NarrowOutcome.fellThrough (token_narrow infos tlu tl count) ∧
       filter_candidates infos tl tlu = [] ∧
       attempt_base_typed_selection_when_no_candidates infos tl tlu = none) := by
  constructor
  · intro hres
    unfold assign_ace_keys_main at hres
    split at hres
    · exact Option.noConfusion hres
    · rename_i consumed s htn
      dsimp only at hres
      cases consumed with
      | true =>
        exfalso
        rw [if_pos rfl] at hres
        have hsne : s ≠ [] := (token_narrow_narrowed htn).2 rfl
        rw [if_neg hsne] at hres
        split at hres
        · exact Option.noConfusion hres
        · split at hres
          · exact Option.noConfusion hres
          · split at hres
            · exact Option.noConfusion hres
            · rw [if_pos rfl] at hres
              exact Option.noConfusion hres
      | false =>
        rw [if_neg (show ¬(false = true) by simp)] at hres
        by_cases hfe : filter_candidates infos tl tlu = []
        · rw [if_pos hfe] at hres
          split at hres
          · exact Option.noConfusion hres
          · rename_i habts
            refine ⟨?_, hfe, habts⟩
            rw [htn]
            trivial
        · exfalso
          rw [if_neg hfe] at hres
          split at hres
          · exact Option.noConfusion hres
          · split at hres
            · exact Option.noConfusion hres
            · split at hres
              · exact Option.noConfusion hres
              · rw [if_neg (show ¬(false = true) by simp)] at hres
                exact Option.noConfusion hres
  · rintro ⟨hft, hfilt, habts⟩
    unfold assign_ace_keys_main
    cases htn : token_narrow infos tlu tl count with
    | selected v =>
      rw [htn] at hft
      exact absurd hft (by intro hh; exact hh)
    | narrowed c s =>
      cases c with
      | true =>
        rw [htn] at hft
        exact absurd hft (by intro hh; exact hh)
      | false =>
        dsimp only
        rw [if_neg (show ¬(false = true) by simp)]
        rw [if_pos hfilt, habts]

theorem aak_attempt_none (elements : List Str) (typed : Str)
    (hemp : lowerStr (clean_string typed) ≠ []) :
    (if ¬(compute_typed_left_unit (lowerStr (clean_string typed)) ≠ [] ∧
        (compute_typed_left_unit (lowerStr (clean_string typed))).isPrefixOf
          (lowerStr (clean_string typed)) ∧
        (compute_typed_left_unit (lowerStr (clean_string typed))).length <
          (lowerStr (clean_string typed)).length) then
      attempt_base_full_key_match (build_infos elements)
        (compute_typed_left_unit (lowerStr (clean_string typed)))
        (clean_string typed) (lowerStr (clean_string typed))
    else none) = none := by
  have htlu_ne : compute_typed_left_unit (lowerStr (clean_string typed)) ≠ [] := by
    unfold compute_typed_left_unit
    exact leftmost_unit_ne_nil hemp
  split
  · rename_i hG
    have hle : (lowerStr (clean_string typed)).length ≤
        (compute_typed_left_unit (lowerStr (clean_string typed))).length := by
      by_contra hlt
      exact hG ⟨htlu_ne, leftmost_unit_isPrefixOf _, by omega⟩
    exact abfkm_none_of_le hle
  · rfl

/-- Claim C6, amended: the engine fails (returns no match) exactly when the
cleaned typed buffer is non-empty, the token-narrowing stage neither selects a
candidate nor consumes any token, the filtered candidate set is empty, and the
base-typed fallback resolves no candidate; in every other case it returns an
assignment list.  (The original claim omitted the narrowing proviso: as the
counterexample shows, narrowing can select a candidate even though the
filtered candidate set is empty and the fallback resolves nothing.) -/
theorem claim_C6_amended (elements : List Str) (typed : Str) :
    assign_ace_keys elements typed = none ↔
      (lowerStr (clean_string typed) ≠ [] ∧
       NarrowOutcome.fellThrough (token_narrow (build_infos elements)
         (compute_typed_left_unit (lowerStr (clean_string typed)))
         (lowerStr (clean_string typed)) elements.length) ∧
       filter_candidates (build_infos elements) (lowerStr (clean_string typed))
         (compute_typed_left_unit (lowerStr (clean_string typed))) = [] ∧
       attempt_base_typed_selection_when_no_candidates (build_infos elements)
         (lowerStr (clean_string typed))
         (compute_typed_left_unit (lowerStr (clean_string typed))) = none) := by
  constructor
  · intro hres
    unfold assign_ace_keys assign_ace_keys_with at hres
    dsimp only at hres
    by_cases hemp : lowerStr (clean_string typed) = []
    · rw [if_pos hemp] at hres
      exact Option.noConfusion hres
    · rw [if_neg hemp, aak_attempt_none elements typed hemp] at hres
      dsimp only at hres
      split at hres
      · exact Option.noConfusion hres
      · split at hres
        · exact Option.noConfusion hres
        · obtain ⟨h1, h2, h3⟩ := aakm_none_iff.mp hres
          exact ⟨hemp, h1, h2, h3⟩
  · rintro ⟨hemp, hft, hfilt, habts⟩
    unfold assign_ace_keys assign_ace_keys_with
    dsimp only
    rw [if_neg hemp, aak_attempt_none elements typed hemp]
    dsimp only
    have hcne : clean_string typed ≠ [] := fun hh => hemp (by rw [hh]; rfl)
    have hfast : (match (build_infos elements).findIdx?
        (fun it => it.clean == clean_string typed) with
      | some idx =>
        if ¬(lowerStr (clean_string typed) =
            compute_typed_left_unit (lowerStr (clean_string typed)) ∧
            1 < ((build_infos elements).filter (fun it => lowerStr it.lu =
              compute_typed_left_unit (lowerStr (clean_string typed)))).length) then
          some (⟨idx, []⟩ : Assignment)
        else none
      | none => none) = none := by
      cases hfind : (build_infos elements).findIdx?
          (fun it => it.clean == clean_string typed) with
      | none => rfl
      | some idx =>
        dsimp only
        split
        · exfalso
          obtain ⟨hlt, hfi⟩ := List.findIdx?_eq_some_iff_findIdx_eq.mp hfind
          have hp : ((build_infos elements)[idx].clean == clean_string typed) = true := by
            subst hfi
            exact @List.findIdx_getElem _ (fun it => it.clean == clean_string typed)
              (build_infos elements) hlt
          have hceq : (build_infos elements)[idx].clean = clean_string typed :=
            eq_of_beq hp
          have hmem : (build_infos elements)[idx] ∈ build_infos elements :=
            List.getElem_mem hlt
          obtain ⟨_, _, hwl, hwu, _⟩ := build_infos_wf hmem
          have hin := mem_filter_candidates_of_prefix hmem hwl hwu hcne
            (hceq ▸ List.prefix_refl _)
          rw [hfilt] at hin
          exact List.not_mem_nil _ hin
        · rfl
    rw [hfast]
    dsimp only
    have hecp : exact_case_precedence (build_infos elements) (clean_string typed)
        = none := by
      cases hecp0 : exact_case_precedence (build_infos elements)
          (clean_string typed) with
      | none => rfl
      | some a =>
        exfalso
        obtain ⟨htc, it, hit, hpre⟩ := ecp_mem_prefix hecp0
        obtain ⟨_, _, hwl, hwu, _⟩ := build_infos_wf hit
        have hin := mem_filter_candidates_of_prefix hit hwl hwu htc hpre
        rw [hfilt] at hin
        exact List.not_mem_nil _ hin
    rw [hecp]
    exact aakm_none_iff.mpr ⟨hft, hfilt, habts⟩

/-- Witness for the amended claim C6 at a concrete input: a typed buffer
inconsistent with the only candidate's left unit fails. -/
theorem claim_C6_amended_witness :
    assign_ace_keys ["zz".data] "q".data = none :=
  (claim_C6_amended ["zz".data] "q".data).mpr (by decide)

/-- Claim C5, amended: when the typed buffer is a non-empty left unit followed
by extra characters, and exactly one candidate in the allocation computed over
the full base-anchored set (the pre-typing snapshot) carries a disambiguator
that case-insensitively equals the first extra character, the engine returns
exactly that candidate with an empty disambiguator — provided the earlier fast
paths do not intercept: no candidate's clean form equals the cleaned typed
buffer, the case-exact-prefix resolver does not single out a candidate, and
the base-anchored set has at least two candidates.  (The counterexample shows
the case-exact-prefix fast path can return a different candidate; a singleton
base set bypasses narrowing entirely.) -/
theorem claim_C5_amended (elements : List Str) (typed : Str) (a : Assignment)
    (t0 : Char) (rest : Str)
    (hlen : (compute_typed_left_unit (lowerStr (clean_string typed))).length <
      (lowerStr (clean_string typed)).length)
    (ht0 : (lowerStr (clean_string typed)).drop
      (compute_typed_left_unit (lowerStr (clean_string typed))).length = t0 :: rest)
    (hnoclean : ∀ it ∈ build_infos elements, it.clean ≠ clean_string typed)
    (hnoexact : ((build_infos elements).filter
      (fun it => (clean_string typed).isPrefixOf it.clean)).length ≠ 1)
    (hbase2 : 2 ≤ ((build_infos elements).filter (fun it =>
      base_lu_match (compute_typed_left_unit (lowerStr (clean_string typed)))
        (lowerStr it.lu))).length)
    (hfilter : ((allocate_disambiguators_filtered
        ((build_infos elements).filter (fun it =>
          base_lu_match (compute_typed_left_unit (lowerStr (clean_string typed)))
            (lowerStr it.lu)))
        (compute_typed_left_unit (lowerStr (clean_string typed)))
        elements.length).filter (fun x => lowerStr x.pfx = [t0])) = [a]) :
    assign_ace_keys elements typed = some [⟨a.index, []⟩] := by
  have hemp : lowerStr (clean_string typed) ≠ [] := by
    intro hh
    rw [hh] at hlen
    simp at hlen
  have htlu_ne : compute_typed_left_unit (lowerStr (clean_string typed)) ≠ [] := by
    unfold compute_typed_left_unit
    exact leftmost_unit_ne_nil hemp
  have hcne : clean_string typed ≠ [] := fun hh => hemp (by rw [hh]; rfl)
  unfold assign_ace_keys assign_ace_keys_with
  dsimp only
  rw [if_neg hemp, aak_attempt_none elements typed hemp]
  dsimp only
  have hfast : (build_infos elements).findIdx?
      (fun it => it.clean == clean_string typed) = none := by
    cases hfind : (build_infos elements).findIdx?
        (fun it => it.clean == clean_string typed) with
    | none => rfl
    | some idx =>
      exfalso
      obtain ⟨hlt, hfi⟩ := List.findIdx?_eq_some_iff_findIdx_eq.mp hfind
      have hp : ((build_infos elements)[idx].clean == clean_string typed) = true := by
        subst hfi
        exact @List.findIdx_getElem _ (fun it => it.clean == clean_string typed)
          (build_infos elements) hlt
      exact hnoclean _ (List.getElem_mem hlt) (eq_of_beq hp)
  rw [hfast]
  dsimp only
  have hecp : exact_case_precedence (build_infos elements) (clean_string typed)
      = none := by
    unfold exact_case_precedence
    rw [if_neg hcne]
    split
    · rename_i it heq
      exfalso
      apply hnoexact
      rw [heq]
      rfl
    · rfl
  rw [hecp]
  have hbase_ne : (build_infos elements).filter (fun it =>
      base_lu_match (compute_typed_left_unit (lowerStr (clean_string typed)))
        (lowerStr it.lu)) ≠ [] := by
    intro hh
    rw [hh] at hbase2
    simp at hbase2
  have hlen2 : ¬(((build_infos elements).filter (fun it =>
      base_lu_match (compute_typed_left_unit (lowerStr (clean_string typed)))
        (lowerStr it.lu))).length ≤ 1) := by
    omega
  have htn : token_narrow (build_infos elements)
      (compute_typed_left_unit (lowerStr (clean_string typed)))
      (lowerStr (clean_string typed)) elements.length = .selected a.index := by
    unfold token_narrow
    rw [if_pos ⟨htlu_ne, leftmost_unit_isPrefixOf _, hlen⟩]
    dsimp only
    rw [if_neg hbase_ne, ht0, narrow_go]
    rw [if_neg hlen2]
    dsimp only
    rw [if_pos (rfl : (0 : Nat) = 0), hfilter]
    rw [if_neg (by simp)]
    rfl
  unfold assign_ace_keys_main
  rw [htn]

/-- Witness for the amended claim C5 at a concrete input: for pool
["aab","axc"] and typed "ab", the snapshot allocation gives "aab" the
disambiguator "b", which matches the extra character, so the engine selects
it with an empty disambiguator. -/
theorem claim_C5_amended_witness :
    assign_ace_keys ["aab".data, "axc".data] "ab".data = some [⟨0, []⟩] :=
  claim_C5_amended ["aab".data, "axc".data] "ab".data ⟨0, ['b']⟩ 'b' []
    (by decide) (by decide) (by decide) (by decide) (by decide) (by decide)
